import Mathlib

/-!
Verification of the `automata` repository (DFA/NFA representation, string
acceptance, subset construction, reachability pruning).

The Python source is shallowly embedded: state graphs become index-addressed
tables, Python exceptions become an explicit `PyErr` error type carried in
`Except`, and the two unbounded `while` loops of the source (the epsilon
closure BFS in `NfaState.convert_to_dfa_state` and the work-queue simulation
in `Nfa.accepts`) are run on explicit fuel, `none` meaning the loop has not
terminated within the given fuel.
-/

namespace Automata

/-- Python exceptions raised by the source: `ValueError` (bad symbol or index
bounds), `IndexError` (sequence index out of range), `KeyError` (missing dict
key), `AttributeError` (attribute access on `None`). -/
inductive PyErr where
  | valueError
  | indexError
  | keyError
  | attributeError
deriving DecidableEq

deriving instance DecidableEq for Except

/-- Update the element of a list at an index, returning the list unchanged
when the index is out of range (used only at in-range indices). -/
def listSet {α : Type} : List α → Nat → α → List α
  | [], _, _ => []
  | _ :: xs, 0, v => v :: xs
  | x :: xs, n + 1, v => x :: listSet xs n v

/-- Association-list lookup, modelling a Python dict read (`d[k]`); `none`
models a `KeyError`. -/
def lookupA {α β : Type} [DecidableEq α] : List (α × β) → α → Option β
  | [], _ => none
  | (k, v) :: rest, x => if x = k then some v else lookupA rest x

/-- Update-or-append on an association list, modelling Python dict assignment
(`d[k] = v`). -/
def assocSet {α β : Type} [DecidableEq α] : List (α × β) → α → β → List (α × β)
  | [], k, v => [(k, v)]
  | (k', v') :: rest, k, v =>
      if k = k' then (k, v) :: rest else (k', v') :: assocSet rest k v

/-- Add an element to a list used as a Python set (`s.add(x)`): append only
when absent, so a list without duplicates stays without duplicates. -/
def setAdd {α : Type} [DecidableEq α] (l : List α) (x : α) : List α :=
  if x ∈ l then l else l ++ [x]

/-- Union of two lists-as-sets (`s.union(t)`), folding `setAdd`. -/
def listUnion {α : Type} [DecidableEq α] (a b : List α) : List α :=
  b.foldl setAdd a

/-- Insert into an ascending list, the helper of `insertionSort`. -/
def insertAsc (x : Nat) : List Nat → List Nat
  | [] => [x]
  | y :: ys => if x ≤ y then x :: y :: ys else y :: insertAsc x ys

/-- Ascending sort of a list of indices, modelling Python `sorted`. -/
def insertionSort : List Nat → List Nat
  | [] => []
  | x :: xs => insertAsc x (insertionSort xs)

/-- Position of the first occurrence of an element, modelling the lookup in
the dictionary built by `get_power_set` (subset tuple to integer id);
`none` models a `KeyError`. -/
def listIndex {α : Type} [DecidableEq α] : List α → α → Option Nat
  | [], _ => none
  | y :: ys, x => if x = y then some 0 else (listIndex ys x).map (· + 1)

/-- All `k`-element combinations of a list, in the order produced by Python
`itertools.combinations` (elements keep their relative order; combinations
containing earlier elements come first). -/
def combinations : Nat → List Nat → List (List Nat)
  | 0, _ => [[]]
  | _ + 1, [] => []
  | k + 1, x :: xs => (combinations k xs).map (x :: ·) ++ combinations (k + 1) xs

/-- The power set of `{0, ..., n-1}` as built by `get_power_set`: all
combinations, by increasing size.  The id of a subset is its position in this
list (the enumeration index of the source's dictionary). -/
def powerSetList (n : Nat) : List (List Nat) :=
  ((List.range (n + 1)).map (fun k => combinations k (List.range n))).flatten

/-- Pair every element of a list with its position starting at `i`, modelling
iteration over the `get_power_set` dictionary together with the stored ids. -/
def enumFrom {α : Type} (i : Nat) : List α → List (Nat × α)
  | [] => []
  | x :: xs => (i, x) :: enumFrom (i + 1) xs

/-- An NFA as built by the `Nfa` constructor plus `add_transition` calls:
`alphaList` is the epsilon-augmented alphabet in iteration order (`none` is
the epsilon marker), `trans q c` the successor-index list stored in state
`q`'s transitions dict under key `c`. -/
structure NfaE where
  size : Nat
  alphaList : List (Option Char)
  trans : Nat → Option Char → List Nat
  start : Nat
  accept : List Nat

/-- One enqueue round of `Nfa.accepts` at a dequeued pair `(i, q)` whose
symbol check passed and with `i` below the input length: iterate the state's
transitions dict; epsilon successors are enqueued at position `i`, successors
on the current input symbol at `i + 1` (source lines 423-431). -/
def enqueueAll (n : NfaE) (q i : Nat) (c : Char) : List (Nat × Nat) :=
  (n.alphaList.map (fun sym =>
    match sym with
    | none => (n.trans q none).map (fun t => (i, t))
    | some a => if a = c then (n.trans q (some a)).map (fun t => (i + 1, t)) else [])).flatten

/-- The work-queue loop of `Nfa.accepts` (source lines 404-433), on fuel.
Each dequeued pair `(i, q)` first evaluates `string[index]` — which raises
`IndexError` when `i` equals the input length — then checks alphabet
membership, then the end-of-input branches, then enqueues successors. -/
def nfaLoop (n : NfaE) (s : List Char) : Nat → List (Nat × Nat) → Option (Except PyErr Bool)
  | _, [] => some (.ok false)
  | 0, _ :: _ => none
  | fuel + 1, (i, q) :: rest =>
      match s.get? i with
      | none => some (.error .indexError)
      | some c =>
          if some c ∈ n.alphaList then
            if i = s.length ∧ q ∈ n.accept then some (.ok true)
            else if i = s.length then
              nfaLoop n s fuel (rest ++ (n.trans q none).map (fun t => (i, t)))
            else
              nfaLoop n s fuel (rest ++ enqueueAll n q i c)
          else some (.error .valueError)

/-- The method `Nfa.accepts`: run the work-queue loop from the single seed pair
`(0, start)` (source line 402). -/
def nfaAccepts (n : NfaE) (s : List Char) (fuel : Nat) : Option (Except PyErr Bool) :=
  nfaLoop n s fuel [(0, n.start)]

/-- The BFS loop of `NfaState.convert_to_dfa_state` (source lines 204-210),
on fuel: pop the head, add it to the set of found states, append all its
epsilon successors — with no visited check. -/
def closureLoop (n : NfaE) : Nat → List Nat → List Nat → Option (List Nat)
  | _, sts, [] => some sts
  | 0, _, _ :: _ => none
  | fuel + 1, sts, nx :: rest => closureLoop n fuel (setAdd sts nx) (rest ++ n.trans nx none)

/-- The method `NfaState.convert_to_dfa_state`: BFS from the state over epsilon
transitions only, then the ascending sorted tuple of the found indices. -/
def convertToDfaState (n : NfaE) (fuel : Nat) (i : Nat) : Option (List Nat) :=
  (closureLoop n fuel (setAdd [] i) (n.trans i none)).map insertionSort

/-- A transition table of a DFA state object: the `transitions` dict, keyed
by the symbols of the state's alphabet; `none` is an undefined transition
(the Python value `None`), `some t` a reference to the state object with
index `t`. -/
abbrev TransTable := List (Char × Option Nat)

/-- A DFA as represented by the `Dfa` class.  `heap` holds the state objects
by index (a state object is never destroyed, only its entry in the states
dict can be removed); `keys` is the key list of the `states` dict in
insertion order, which `remove_redundant_states` shrinks. -/
structure DfaE where
  size : Nat
  alphabet : List Char
  heap : List TransTable
  keys : List Nat
  start : Nat
  accept : List Nat
deriving DecidableEq

/-- A read of `self.states[i]`: the dict lookup gives the state object with
index `i` whenever `i` is still a key. -/
def statesLookup (d : DfaE) (i : Nat) : Option TransTable :=
  if i ∈ d.keys then d.heap[i]? else none

/-- The `Dfa` constructor (source lines 250-277): bounds checks on the start
and accept indices, then `size` fresh states sharing the alphabet, each with
an all-`None` transitions dict. -/
def mkDfa (size : Nat) (alphabet : List Char) (start : Nat) (accept : List Nat) :
    Except PyErr DfaE :=
  if ¬ start < size then .error .valueError
  else if ¬ accept.all (fun i => decide (i < size)) then .error .valueError
  else .ok { size := size, alphabet := alphabet,
             heap := (List.range size).map (fun _ => alphabet.map (fun c => (c, none))),
             keys := List.range size, start := start, accept := accept }

/-- The method `Dfa.add_transition` (source lines 298-317): bounds checks, the two
states-dict lookups, then `State.add`, which checks the symbol against the
alphabet and overwrites the transitions-dict entry. -/
def addTransition (d : DfaE) (source destination : Nat) (symbol : Char) :
    Except PyErr DfaE :=
  if ¬ source < d.size then .error .valueError
  else if ¬ destination < d.size then .error .valueError
  else
    match statesLookup d source with
    | none => .error .keyError
    | some tbl =>
        match statesLookup d destination with
        | none => .error .keyError
        | some _ =>
            if symbol ∈ d.alphabet then
              .ok { d with heap := listSet d.heap source (assocSet tbl symbol (some destination)) }
            else .error .valueError

/-- The walk of `Dfa.accepts` (source lines 330-339): `cur` is the Python
variable `next_state`, `none` modelling the value `None` left by an undefined
transition; dereferencing it raises `AttributeError`.  For each input symbol
the alphabet check comes first, then the transitions-dict read on the current
state object. -/
def dfaWalk (d : DfaE) : Option Nat → List Char → Except PyErr Bool
  | none, [] => .error .attributeError
  | some q, [] => .ok (decide (q ∈ d.accept))
  | cur, c :: rest =>
      if c ∈ d.alphabet then
        match cur with
        | none => .error .attributeError
        | some q =>
            match d.heap[q]? with
            | none => .error .keyError
            | some tbl =>
                match lookupA tbl c with
                | none => .error .keyError
                | some t => dfaWalk d t rest
      else .error .valueError

/-- The method `Dfa.accepts`: fetch the start state from the states dict, then walk the
input. -/
def dfaAccepts (d : DfaE) (s : List Char) : Except PyErr Bool :=
  match statesLookup d d.start with
  | none => .error .keyError
  | some _ => dfaWalk d (some d.start) s

/-- Sequencing helper for chained source-level calls whose first stage is a
fuelled computation: propagate non-termination (`none`) and raised
exceptions, otherwise apply the next call. -/
def obind {α β : Type} : Option (Except PyErr α) → (α → Except PyErr β) →
    Option (Except PyErr β)
  | none, _ => none
  | some (.error e), _ => some (.error e)
  | some (.ok a), f => some (f a)

/-- The inner fold of the transition computation in `convert_to_dfa` (source
line 466-467): for each successor in `targets`, union the accumulated set
with that successor's epsilon closure. -/
def unionClosures (n : NfaE) (fuel : Nat) : List Nat → List Nat → Option (List Nat)
  | acc, [] => some acc
  | acc, t :: rest =>
      match convertToDfaState n fuel t with
      | none => none
      | some cl => unionClosures n fuel (listUnion acc cl) rest

/-- The fold over the members of a subset `s` in `convert_to_dfa` (source
lines 462-467): accumulate the epsilon closures of all successors of all
members of `s` on the symbol `a`. -/
def unionOverSubset (n : NfaE) (fuel : Nat) : List Nat → List Nat → Char → Option (List Nat)
  | acc, [], _ => some acc
  | acc, i :: rest, a =>
      match unionClosures n fuel acc (n.trans i (some a)) with
      | none => none
      | some acc' => unionOverSubset n fuel acc' rest a

/-- The inner loop of `convert_to_dfa` over the alphabet symbols for a fixed
subset `s` (source lines 460-469): compute the target subset, look up both
subset ids in the power-set dictionary, record the transition. -/
def convertSymbols (n : NfaE) (fuel : Nat) (pw : List (List Nat)) (s : List Nat) :
    DfaE → List Char → Option (Except PyErr DfaE)
  | d, [] => some (.ok d)
  | d, a :: moreSyms =>
      match unionOverSubset n fuel [] s a with
      | none => none
      | some u =>
          match listIndex pw s with
          | none => some (.error .keyError)
          | some k =>
              match listIndex pw (insertionSort u) with
              | none => some (.error .keyError)
              | some k' =>
                  match addTransition d k k' a with
                  | .error e => some (.error e)
                  | .ok d' => convertSymbols n fuel pw s d' moreSyms

/-- The outer loop of `convert_to_dfa` over all subsets (source line 458). -/
def convertLoop (n : NfaE) (fuel : Nat) (pw : List (List Nat)) (al : List Char) :
    DfaE → List (List Nat) → Option (Except PyErr DfaE)
  | d, [] => some (.ok d)
  | d, s :: rest =>
      match convertSymbols n fuel pw s d al with
      | none => none
      | some (.error e) => some (.error e)
      | some (.ok d') => convertLoop n fuel pw al d' rest

/-- The accept-id collection of `convert_to_dfa` (source lines 445-451): walk
the power-set dictionary in insertion order and keep the id of every subset
containing at least one original accept index (the inner `break` makes this
an any-test). -/
def acceptIdsOf (pw : List (List Nat)) (accept : List Nat) : List Nat :=
  (enumFrom 0 pw).filterMap (fun p => if p.2.any (fun i => decide (i ∈ accept)) then some p.1 else none)

/-- The method `Nfa.convert_to_dfa` (source lines 435-471): power set of the state
indices, start id from the epsilon closure of the start state, accept ids,
the alphabet stripped of the epsilon marker, a fresh `2 ^ size`-state DFA,
then one recorded transition per subset and symbol. -/
def convertToDfa (n : NfaE) (fuel : Nat) : Option (Except PyErr DfaE) :=
  let pw := powerSetList n.size
  match convertToDfaState n fuel n.start with
  | none => none
  | some startClosure =>
      match listIndex pw startClosure with
      | none => some (.error .keyError)
      | some startId =>
          let acceptIds := acceptIdsOf pw n.accept
          let al := n.alphaList.filterMap id
          match mkDfa (2 ^ n.size) al startId acceptIds with
          | .error e => some (.error e)
          | .ok d => convertLoop n fuel pw al d pw

/-- The inner loop of the pruning BFS over one state's transitions dict
(source lines 358-361): each entry is dereferenced (`.index`, raising
`AttributeError` on `None`), its visited flag read (raising `IndexError` out
of range), and the target appended to the work queue when unvisited. -/
def scanSuccs (visited : List Bool) : List (Char × Option Nat) → List Nat →
    Except PyErr (List Nat)
  | [], queue => .ok queue
  | (_, none) :: _, _ => .error .attributeError
  | (_, some t) :: rest, queue =>
      match visited[t]? with
      | none => .error .indexError
      | some b => scanSuccs visited rest (if b then queue else queue ++ [t])

/-- The BFS loop of `Dfa.remove_redundant_states` (source lines 350-361) on
fuel (`none` = fuel exhausted; the loop itself always terminates, which
`pruneLoopF_terminates` proves): pop a state index, check its visited flag
(`IndexError` when the flag list — sized by the current number of dict
entries — is too short), mark it, and scan its transitions. -/
def pruneLoopF (d : DfaE) : Nat → List Bool → List Nat → Option (Except PyErr (List Bool))
  | _, visited, [] => some (.ok visited)
  | 0, _, _ :: _ => none
  | fuel + 1, visited, q :: rest =>
      match visited[q]? with
      | none => some (.error .indexError)
      | some b =>
          if b then pruneLoopF d fuel visited rest
          else
            match statesLookup d q with
            | none => some (.error .keyError)
            | some tbl =>
                match scanSuccs (listSet visited q true) tbl rest with
                | .error e => some (.error e)
                | .ok queue' => pruneLoopF d fuel (listSet visited q true) queue'

/-- Removal of one key from the states dict (`self.states.pop(i)`): a
`KeyError` when the key is absent. -/
def dictPopKey (keys : List Nat) (i : Nat) : Except PyErr (List Nat) :=
  if i ∈ keys then .ok (keys.filter (fun k => decide (k ≠ i))) else .error .keyError

/-- The final sweep of `remove_redundant_states` (source lines 363-365):
for every position of the visited list, pop the states-dict entry of every
unvisited index.  `i` is the current position. -/
def popLoop : List Nat → List Bool → Nat → Except PyErr (List Nat)
  | keys, [], _ => .ok keys
  | keys, b :: rest, i =>
      if b then popLoop keys rest (i + 1)
      else
        match dictPopKey keys i with
        | .error e => .error e
        | .ok keys' => popLoop keys' rest (i + 1)

/-- The method `Dfa.remove_redundant_states` (source lines 341-365): the visited list is
sized by the **current** number of states-dict entries, the BFS is run from
the start index, then every unvisited index is popped from the dict. -/
def removeRedundantStates (d : DfaE) (fuel : Nat) : Option (Except PyErr DfaE) :=
  match pruneLoopF d fuel (List.replicate d.keys.length false) [d.start] with
  | none => none
  | some (.error e) => some (.error e)
  | some (.ok visited) =>
      match popLoop d.keys visited 0 with
      | .error e => some (.error e)
      | .ok keys' => some (.ok { d with keys := keys' })

/-- Reachability in a DFA along defined transitions of states present in the
states dict: the specification-level description of the states the pruning
pass keeps. -/
inductive Reach (d : DfaE) : Nat → Prop where
  | start : Reach d d.start
  | step {i t : Nat} {tbl : TransTable} {c : Char} :
      Reach d i → statesLookup d i = some tbl → (c, some t) ∈ tbl → Reach d t

/-- A Python symbol set: list-as-set of symbols, `none` being the epsilon
marker stored by `get_nfa_alphabet`. -/
abbrev SymSet := List (Option Char)

/-- A minimal Python heap for the `Alphabet` aliasing analysis: the symbol
set objects by reference, and a counter of allocated `Alphabet` objects
(used only to witness object identity). -/
structure PyHeap where
  sets : List SymSet
  nextObj : Nat

/-- An `Alphabet` object: its identity and the reference to its underlying
symbol set (`self.symbols`). -/
structure AlphabetObj where
  objId : Nat
  symsRef : Nat
deriving DecidableEq

/-- The symbol set an alphabet reference currently denotes. -/
def setLookup (h : PyHeap) (ref : Nat) : SymSet :=
  (h.sets.get? ref).getD []

/-- In-place `set.add` on the symbol set stored at a reference. -/
def heapSetAdd (h : PyHeap) (ref : Nat) (x : Option Char) : PyHeap :=
  { h with sets := listSet h.sets ref (setAdd (setLookup h ref) x) }

/-- The method `Alphabet.get_nfa_alphabet` (source lines 59-71): `Alphabet(self.symbols)`
allocates a new object sharing the receiver's symbol set object, then
`alphabet.symbols.add(None)` mutates that shared set in place. -/
def getNfaAlphabet (h : PyHeap) (a : AlphabetObj) : PyHeap × AlphabetObj :=
  let b : AlphabetObj := { objId := h.nextObj, symsRef := a.symsRef }
  let h1 : PyHeap := { h with nextObj := h.nextObj + 1 }
  (heapSetAdd h1 b.symsRef none, b)

/-- The method `Alphabet.add` (source lines 43-57) for a character argument (the
single-character check always passes for a `Char`): in-place `set.add` on the
receiver's symbol set. -/
def alphabetAdd (h : PyHeap) (a : AlphabetObj) (c : Char) : PyHeap :=
  heapSetAdd h a.symsRef (some c)

/-- The NFA built by `src/main.py` lines 15-19 and by `test_all_accept_nfa`:
two states over `{0, 1}`, start `0`, accept `{0}`, an epsilon transition
`0 -> 1`, and transitions `1 -> 0` on both symbols. -/
def mainNfa : NfaE :=
  { size := 2
    alphaList := [none, some '0', some '1']
    trans := fun q c =>
      match q, c with
      | 0, none => [1]
      | 1, some '0' => [0]
      | 1, some '1' => [0]
      | _, _ => []
    start := 0
    accept := [0] }

/-- A minimal NFA: one state, no transitions, the single state both start and
accepting.  It accepts exactly the empty string. -/
def oneNfa : NfaE :=
  { size := 1
    alphaList := [none, some '0', some '1']
    trans := fun _ _ => []
    start := 0
    accept := [0] }

/-- A one-state NFA whose single state carries an epsilon self-loop: the
smallest automaton with an epsilon cycle. -/
def loopNfa : NfaE :=
  { size := 1
    alphaList := [none, some '0']
    trans := fun q c =>
      match q, c with
      | 0, none => [0]
      | _, _ => []
    start := 0
    accept := [0] }

/-- Sequencing helper like `obind` whose second stage is itself fuelled. -/
def obindO {α β : Type} : Option (Except PyErr α) → (α → Option (Except PyErr β)) →
    Option (Except PyErr β)
  | none, _ => none
  | some (.error e), _ => some (.error e)
  | some (.ok a), f => f a

/-- A one-state DFA over `{0}` with no transition ever added, as produced by
`Dfa(1, Alphabet({'0'}), 0)`: its only transition entry is undefined. -/
def c6bad : DfaE :=
  { size := 1, alphabet := ['0'], heap := [[('0', none)]],
    keys := [0], start := 0, accept := [] }

/-- The value of `mkDfa 1 ['0'] 0 [0]`: a one-state DFA whose single state is
both start and accepting and has no transition defined. -/
def c10d : DfaE :=
  { size := 1, alphabet := ['0'], heap := [[('0', none)]],
    keys := [0], start := 0, accept := [0] }

/-- The aliasing facts about `get_nfa_alphabet` for a heap `h` and alphabet
object `a`: the returned object is a new instance but shares the symbol-set
reference; the shared set afterwards equals the old set plus the epsilon
marker, also when read through `a` itself; and a later `add` through either
object is seen through the other. -/
def C9Conclusion (h : PyHeap) (a : AlphabetObj) : Prop :=
  (getNfaAlphabet h a).2.objId ≠ a.objId ∧
  (getNfaAlphabet h a).2.symsRef = a.symsRef ∧
  (∀ x, x ∈ setLookup (getNfaAlphabet h a).1 (getNfaAlphabet h a).2.symsRef ↔
    (x = none ∨ x ∈ setLookup h a.symsRef)) ∧
  none ∈ setLookup (getNfaAlphabet h a).1 a.symsRef ∧
  (∀ c, some c ∈ setLookup (alphabetAdd (getNfaAlphabet h a).1 (getNfaAlphabet h a).2 c)
    a.symsRef) ∧
  (∀ c, some c ∈ setLookup (alphabetAdd (getNfaAlphabet h a).1 a c)
    (getNfaAlphabet h a).2.symsRef)

/-- A concrete heap with one symbol set `{'0', '1'}` and one allocated
alphabet object. -/
def c9heap : PyHeap := { sets := [[some '0', some '1']], nextObj := 1 }

/-- The alphabet object of `c9heap`. -/
def c9alpha : AlphabetObj := { objId := 0, symsRef := 0 }

/-- An executable well-formedness check for a DFA as the constructor and
`add_transition` leave it, with every transition defined: the states dict
holds exactly the indices below `size` in insertion order, the start index is
in range, one state object per index, and every transitions-dict entry holds
a defined in-range target. -/
def dfaTotalWF (d : DfaE) : Bool :=
  decide (d.keys = List.range d.size) && decide (d.start < d.size) &&
    (d.heap.length == d.size) &&
    d.heap.all (fun tbl => tbl.all (fun p =>
      match p.2 with
      | some t => decide (t < d.size)
      | none => false))

/-- What pruning does on a well-formed total DFA: for every large enough
fuel it completes without error; the nominal size, alphabet, state objects,
start and accept indices are untouched; the retained dict keys are exactly
the reachable ones; and every transition of a retained state targets a
retained state. -/
def C6Conclusion (d : DfaE) : Prop :=
  ∃ fuel₀ d', (∀ fuel, fuel₀ ≤ fuel → removeRedundantStates d fuel = some (.ok d')) ∧
    d'.size = d.size ∧ d'.alphabet = d.alphabet ∧ d'.heap = d.heap ∧
    d'.start = d.start ∧ d'.accept = d.accept ∧
    (∀ i, i ∈ d'.keys ↔ (i ∈ d.keys ∧ Reach d i)) ∧
    (∀ i, i ∈ d'.keys → ∀ tbl, statesLookup d i = some tbl →
      ∀ c t, (c, some t) ∈ tbl → t ∈ d'.keys)

/-- A two-state total DFA over `{'0'}` whose second state is unreachable from
the start state. -/
def c6good : DfaE :=
  { size := 2, alphabet := ['0'], heap := [[('0', some 0)], [('0', some 0)]],
    keys := [0, 1], start := 0, accept := [0] }

/-- The raw transition entry of state object `k` on symbol `a`: `none` when
the state or the dict key is missing, `some none` for a recorded undefined
transition, `some (some t)` for a recorded target. -/
def heapTrans (d : DfaE) (k : Nat) (a : Char) : Option (Option Nat) :=
  (d.heap[k]?).bind (fun tbl => lookupA tbl a)

/-- The subset-construction facts of claim C2 for an NFA `n`, a fuel bound,
and the produced DFA `d`: the power-set dictionary enumerates exactly the
`2 ^ n` sorted subsets of the state indices, by increasing size; the DFA has
exactly `2 ^ n` states over the alphabet without the epsilon marker; its
start id is the id of the epsilon closure of the NFA start state; its accept
ids are exactly the ids of subsets meeting the NFA accept set; and for every
subset and every symbol a transition is recorded — also when the target
subset is empty — to the id of the sorted union of the epsilon closures of
all successors of all subset members on that symbol. -/
def C2Conclusion (n : NfaE) (fuel : Nat) (d : DfaE) : Prop :=
  (powerSetList n.size).length = 2 ^ n.size ∧
  (∀ s, s ∈ powerSetList n.size ↔
    (List.Pairwise (· < ·) s ∧ ∀ x, x ∈ s → x < n.size)) ∧
  (powerSetList n.size).Nodup ∧
  (powerSetList n.size).Pairwise (fun a b => a.length ≤ b.length) ∧
  d.size = 2 ^ n.size ∧ d.keys = List.range (2 ^ n.size) ∧
  d.heap.length = 2 ^ n.size ∧
  d.alphabet = n.alphaList.filterMap id ∧
  (∃ cl, convertToDfaState n fuel n.start = some cl ∧
    listIndex (powerSetList n.size) cl = some d.start) ∧
  (∀ k : Nat, k ∈ d.accept ↔
    ∃ s, (powerSetList n.size)[k]? = some s ∧ ∃ i, i ∈ s ∧ i ∈ n.accept) ∧
  (∀ (k : Nat) s, (powerSetList n.size)[k]? = some s → ∀ a, a ∈ d.alphabet →
    ∃ u k', unionOverSubset n fuel [] s a = some u ∧
      (∀ x : Nat, x ∈ u ↔ ∃ q, q ∈ s ∧ ∃ r, r ∈ n.trans q (some a) ∧ ∃ cl,
        convertToDfaState n fuel r = some cl ∧ x ∈ cl) ∧
      listIndex (powerSetList n.size) (insertionSort u) = some k' ∧
      heapTrans d k a = some (some k'))

/-- Divergence of the conversion of an NFA: no amount of fuel makes the
embedded `convert_to_dfa` return, modelling a Python call that never
terminates. -/
def ConversionDiverges (n : NfaE) : Prop :=
  ∀ fuel : Nat, convertToDfa n fuel = none

/-- The DFA produced by converting `oneNfa`. -/
def c2d : DfaE :=
  { size := 2, alphabet := ['0', '1'],
    heap := [[('0', some 0), ('1', some 0)], [('0', some 0), ('1', some 0)]],
    keys := [0, 1], start := 1, accept := [1] }

/-- Marking a still-unvisited entry strictly shrinks the number of `false`
entries: the termination measure of the pruning BFS. -/
theorem count_false_listSet (v : List Bool) (q : Nat) (h : v[q]? = some false) :
    (listSet v q true).count false < v.count false := by
  induction v generalizing q with
  | nil => simp at h
  | cons b bs ih =>
      cases q with
      | zero =>
          simp at h
          subst h
          simp [listSet, List.count_cons]
      | succ q =>
          simp at h
          have := ih q h
          rcases b with _ | _ <;> simp [listSet, List.count_cons] <;> omega

/-- More fuel never changes a result the pruning BFS already reached. -/
theorem pruneLoopF_mono (d : DfaE) :
    ∀ fuel fuel' v q r, fuel ≤ fuel' → pruneLoopF d fuel v q = some r →
      pruneLoopF d fuel' v q = some r := by
  intro fuel
  induction fuel with
  | zero =>
      intro fuel' v q r _ h
      cases q with
      | nil => simpa [pruneLoopF] using h
      | cons x rest => simp [pruneLoopF] at h
  | succ fuel ih =>
      intro fuel' v q r hle h
      cases q with
      | nil =>
          cases fuel' <;> simpa [pruneLoopF] using h
      | cons x rest =>
          obtain ⟨fuel'', rfl⟩ : ∃ k, fuel' = k + 1 := by
            cases fuel' with
            | zero => omega
            | succ k => exact ⟨k, rfl⟩
          have hle' : fuel ≤ fuel'' := by omega
          simp only [pruneLoopF] at h ⊢
          cases hvx : v[x]? with
          | none => simpa [hvx] using h
          | some b =>
              simp only [hvx] at h ⊢
              cases b with
              | true => simpa using ih fuel'' v rest r hle' (by simpa using h)
              | false =>
                  simp only [Bool.false_eq_true, if_false] at h ⊢
                  cases hst : statesLookup d x with
                  | none => simpa [hst] using h
                  | some tbl =>
                      simp only [hst] at h ⊢
                      cases hsc : scanSuccs (listSet v x true) tbl rest with
                      | error e => simpa [hsc] using h
                      | ok queue' =>
                          simp only [hsc] at h ⊢
                          exact ih fuel'' _ queue' r hle' h

/-- The pruning BFS always terminates: some fuel yields a result (the
source's `while` loop cannot run forever, since states are enqueued only
when freshly marked). -/
theorem pruneLoopF_terminates (d : DfaE) :
    ∀ v q, ∃ fuel r, pruneLoopF d fuel v q = some r := by
  have H : ∀ n (v : List Bool) (q : List Nat), v.count false = n →
      ∃ fuel r, pruneLoopF d fuel v q = some r := by
    intro n
    induction n using Nat.strong_induction_on with
    | _ n ihn =>
        intro v q hc
        induction q with
        | nil => exact ⟨0, .ok v, rfl⟩
        | cons x rest ihq =>
            cases hvx : v[x]? with
            | none => exact ⟨1, .error .indexError, by simp [pruneLoopF, hvx]⟩
            | some b =>
                cases b with
                | true =>
                    obtain ⟨fuel, r, hr⟩ := ihq
                    exact ⟨fuel + 1, r, by simpa [pruneLoopF, hvx] using hr⟩
                | false =>
                    cases hst : statesLookup d x with
                    | none => exact ⟨1, .error .keyError, by simp [pruneLoopF, hvx, hst]⟩
                    | some tbl =>
                        cases hsc : scanSuccs (listSet v x true) tbl rest with
                        | error e =>
                            exact ⟨1, .error e, by simp [pruneLoopF, hvx, hst, hsc]⟩
                        | ok queue' =>
                            obtain ⟨fuel, r, hr⟩ :=
                              ihn ((listSet v x true).count false)
                                (by rw [← hc]; exact count_false_listSet v x hvx)
                                (listSet v x true) queue' rfl
                            exact ⟨fuel + 1, r, by simp [pruneLoopF, hvx, hst, hsc, hr]⟩
  intro v q
  exact H _ v q rfl

/-- The epsilon-closure BFS of `loopNfa`, whose queue forever holds the
self-looping state `0`, never empties: no amount of fuel finishes it. -/
theorem closureLoop_loopNfa (fuel : Nat) : ∀ sts, closureLoop loopNfa fuel sts [0] = none := by
  induction fuel with
  | zero => intro sts; rfl
  | succ fuel ih => intro sts; exact ih (setAdd sts 0)

/-- C1: the claim says `n.accepts(s)` returns the same boolean as
`n.convert_to_dfa().accepts(s)` for every `s` over the alphabet.  It fails on
the code: on `oneNfa` with the empty input, `Nfa.accepts` evaluates
`string[0]` before its end-of-input test and raises `IndexError`, returning
no boolean at all, while the converted DFA returns `True`. -/
theorem c1_language_equiv_fails :
    nfaAccepts oneNfa [] 5 = some (.error .indexError) ∧
      obind (convertToDfa oneNfa 5) (fun d => dfaAccepts d []) = some (.ok true) := by
  decide

/-- C3: the claim says a dequeued pair whose consumed length equals the input
length is handled by the end-of-input branch first (accepting immediately
when the state is accepting) and that the input is never read at that
position.  The code reads `string[index]` first (source line 408): for every
NFA, input, accepting state and queue tail, dequeuing such a pair raises
`IndexError` instead of returning `True`. -/
theorem c3_end_of_input_read_fails (n : NfaE) (s : List Char) (q : Nat)
    (rest : List (Nat × Nat)) (fuel : Nat) (hq : q ∈ n.accept) :
    nfaLoop n s (fuel + 1) ((s.length, q) :: rest) = some (.error .indexError) := by
  have hg : s.get? s.length = none := by simp
  simp [nfaLoop, hg]

/-- Witness for C3 at a concrete input: `mainNfa`, the empty input, its
accepting start state `0`, an empty queue tail. -/
theorem c3_end_of_input_read_fails_witness :
    (0 ∈ mainNfa.accept) ∧
      nfaLoop mainNfa [] 1 [(0, 0)] = some (.error .indexError) :=
  ⟨by decide, c3_end_of_input_read_fails mainNfa [] 0 [] 0 (by decide)⟩

/-- C4: the claim says `convert_to_dfa_state` terminates on every state,
including states on epsilon cycles.  On the epsilon self-loop of `loopNfa`
the BFS (which lacks a visited check) re-enqueues state `0` forever: no fuel
makes it return. -/
theorem c4_closure_diverges_on_cycle (fuel : Nat) :
    convertToDfaState loopNfa fuel 0 = none := by
  have h := closureLoop_loopNfa fuel (setAdd [] 0)
  simp only [convertToDfaState]
  rw [show loopNfa.trans 0 none = [0] from rfl, h]
  rfl

/-- C5: the claim says an undefined transition makes `Dfa.accepts` fail with
an explicit `UndefinedTransition` error and never any other failure.  The
code instead stores Python `None` and crashes dereferencing it: on the
transition-free one-state DFA the walk on input `0` raises `AttributeError`.
The other two behaviors of the claim hold at these inputs: a symbol outside
the alphabet raises the `ValueError` of the alphabet guard, and with a
defined transition the walk returns membership of the final state in the
accept set. -/
theorem c5_undefined_transition_crashes :
    Except.bind (mkDfa 1 ['0'] 0 []) (fun d => dfaAccepts d ['0']) = .error .attributeError ∧
      Except.bind (mkDfa 1 ['0'] 0 []) (fun d => dfaAccepts d ['x']) = .error .valueError ∧
      Except.bind (mkDfa 1 ['0'] 0 [0])
        (fun d => Except.bind (addTransition d 0 0 '0') (fun d' => dfaAccepts d' ['0'])) =
        .ok true := by
  decide

/-- C7: the claim says converting and pruning twice completes without error
and agrees with pruning once.  On the NFA of `src/main.py` the once-pruned
DFA keeps only state `3`, so the second call sizes its visited list by the
single remaining dict entry, and `visited[3]` raises `IndexError`; pruning
once accepts the string `1`. -/
theorem c7_prune_twice_crashes :
    obindO (obindO (convertToDfa mainNfa 10) (fun d => removeRedundantStates d 10))
        (fun d => removeRedundantStates d 10) = some (.error .indexError) ∧
      obind (obindO (convertToDfa mainNfa 10) (fun d => removeRedundantStates d 10))
        (fun d => dfaAccepts d ['1']) = some (.ok true) := by
  decide

/-- C8: the claim (and the repository's own `test_all_accept_nfa`) says the
all-accepting NFA accepts every string including the empty one.  The code
raises `IndexError` instead: on the empty input the very first dequeued pair
reads `string[0]`, and on the input `1` the accepting configuration `(1, 0)`
reads `string[1]`. -/
theorem c8_all_accept_nfa_crashes :
    nfaAccepts mainNfa [] 5 = some (.error .indexError) ∧
      nfaAccepts mainNfa ['1'] 5 = some (.error .indexError) := by
  decide

/-- C10: for every successfully constructed DFA, `accepts` on the empty
string raises no error, follows no transition, and returns exactly the
membership of the start index in the accept set. -/
theorem c10_empty_input (size : Nat) (alphabet : List Char) (start : Nat)
    (accept : List Nat) (d : DfaE) (h : mkDfa size alphabet start accept = .ok d) :
    dfaAccepts d [] = .ok (decide (start ∈ accept)) := by
  by_cases hs : start < size
  · by_cases ha : accept.all (fun i => decide (i < size))
    · simp only [mkDfa, hs, not_true_eq_false, if_false, ha, Except.ok.injEq] at h
      subst h
      simp [dfaAccepts, statesLookup, dfaWalk, List.mem_range, hs]
    · simp [mkDfa, hs, ha] at h
  · simp [mkDfa, hs] at h

/-- Witness for C10: the one-state DFA `mkDfa 1 ['0'] 0 [0]` with no
transitions accepts the empty string. -/
theorem c10_empty_input_witness :
    (mkDfa 1 ['0'] 0 [0] = .ok c10d) ∧
      dfaAccepts c10d [] = .ok (decide ((0 : Nat) ∈ [0])) :=
  ⟨by decide, c10_empty_input 1 ['0'] 0 [0] c10d (by decide)⟩

/-- C2 counterexample: the claim quantifies over every NFA, but on `loopNfa`
(an epsilon self-loop) `convert_to_dfa` never finishes: its very first
epsilon-closure computation diverges, so no DFA with `2 ^ n` states is ever
built. -/
theorem c2_conversion_diverges_on_cycle : ConversionDiverges loopNfa := by
  intro fuel
  have h : convertToDfaState loopNfa fuel loopNfa.start = none := by
    have h0 := closureLoop_loopNfa fuel (setAdd [] 0)
    simp only [convertToDfaState]
    rw [show loopNfa.trans loopNfa.start none = [0] from rfl]
    rw [show loopNfa.start = 0 from rfl, h0]
    rfl
  simp only [convertToDfa]
  rw [h]

/-- C6 counterexample: the claim says `remove_redundant_states` completes
without error on every DFA, including ones with undefined transitions,
skipping those.  On the transition-free one-state DFA the BFS dereferences
the undefined entry (`.index` on `None`) and raises `AttributeError`. -/
theorem c6_prune_crashes_on_undefined :
    removeRedundantStates c6bad 5 = some (.error .attributeError) := by
  decide

/-- Overwriting a list entry keeps the list length. -/
theorem listSet_length {α : Type} (l : List α) (i : Nat) (v : α) :
    (listSet l i v).length = l.length := by
  induction l generalizing i with
  | nil => rfl
  | cons x xs ih =>
      cases i with
      | zero => rfl
      | succ i => simpa [listSet] using ih i

/-- Reading an in-range entry just overwritten gives the written value. -/
theorem get?_listSet_self {α : Type} (l : List α) (i : Nat) (v : α) (h : i < l.length) :
    (listSet l i v)[i]? = some v := by
  induction l generalizing i with
  | nil => simp at h
  | cons x xs ih =>
      cases i with
      | zero => simp [listSet]
      | succ i => simpa [listSet] using ih i (by simpa using h)

/-- Membership after a Python `set.add`. -/
theorem mem_setAdd {α : Type} [DecidableEq α] (l : List α) (x y : α) :
    x ∈ setAdd l y ↔ (x = y ∨ x ∈ l) := by
  by_cases hy : y ∈ l
  · simp only [setAdd, hy, if_true]
    constructor
    · exact fun h => Or.inr h
    · rintro (rfl | h) <;> assumption
  · simp [setAdd, hy, List.mem_append, or_comm]

/-- C9: `get_nfa_alphabet` returns a new `Alphabet` instance sharing the
receiver's underlying symbol set object; the shared set gains the epsilon
marker `None` (so the receiver's own set gains it too — in particular the
alphabet a caller passes to `Nfa.__init__`), and any later `add` through
either instance is visible through the other. -/
theorem c9_alphabet_aliasing (h : PyHeap) (a : AlphabetObj)
    (href : a.symsRef < h.sets.length) (hobj : a.objId < h.nextObj) :
    C9Conclusion h a := by
  have hsets : ((getNfaAlphabet h a).1).sets =
      listSet h.sets a.symsRef (setAdd (setLookup h a.symsRef) none) := rfl
  have hlook : setLookup (getNfaAlphabet h a).1 a.symsRef =
      setAdd (setLookup h a.symsRef) none := by
    simp [setLookup, hsets, get?_listSet_self _ _ _ href]
  refine ⟨?_, rfl, ?_, ?_, ?_, ?_⟩
  · show h.nextObj ≠ a.objId
    omega
  · intro x
    show x ∈ setLookup (getNfaAlphabet h a).1 a.symsRef ↔ _
    rw [hlook, mem_setAdd]
  · rw [hlook, mem_setAdd]
    exact Or.inl rfl
  · intro c
    have hlen : a.symsRef < ((getNfaAlphabet h a).1).sets.length := by
      rw [hsets, listSet_length]
      exact href
    show some c ∈ setLookup (heapSetAdd (getNfaAlphabet h a).1 a.symsRef (some c)) a.symsRef
    simp [setLookup, heapSetAdd, get?_listSet_self _ _ _ (by simpa [heapSetAdd] using hlen),
      mem_setAdd]
  · intro c
    have hlen : a.symsRef < ((getNfaAlphabet h a).1).sets.length := by
      rw [hsets, listSet_length]
      exact href
    show some c ∈ setLookup (heapSetAdd (getNfaAlphabet h a).1 a.symsRef (some c)) a.symsRef
    simp [setLookup, heapSetAdd, get?_listSet_self _ _ _ (by simpa [heapSetAdd] using hlen),
      mem_setAdd]

/-- Witness for C9 at the concrete heap holding the symbol set `{'0', '1'}`
of `src/main.py`. -/
theorem c9_alphabet_aliasing_witness :
    (c9alpha.symsRef < c9heap.sets.length ∧ c9alpha.objId < c9heap.nextObj) ∧
      C9Conclusion c9heap c9alpha :=
  ⟨⟨by decide, by decide⟩, c9_alphabet_aliasing c9heap c9alpha (by decide) (by decide)⟩

/-- Reading an entry other than the overwritten one is unchanged. -/
theorem get?_listSet_ne {α : Type} (l : List α) (i j : Nat) (v : α) (h : j ≠ i) :
    (listSet l i v)[j]? = l[j]? := by
  induction l generalizing i j with
  | nil => simp [listSet]
  | cons x xs ih =>
      cases i with
      | zero =>
          cases j with
          | zero => omega
          | succ j => simp [listSet]
      | succ i =>
          cases j with
          | zero => simp [listSet]
          | succ j => simpa [listSet] using ih i j (by omega)

/-- A visited flag that is `true` stays `true` after marking any index. -/
theorem listSet_true_mono (v : List Bool) (x i : Nat) (h : v[i]? = some true) :
    (listSet v x true)[i]? = some true := by
  by_cases hix : i = x
  · subst hix
    have hi : i < v.length := by
      by_contra hc
      rw [List.getElem?_eq_none_iff.mpr (by omega)] at h
      exact Option.noConfusion h
    rw [get?_listSet_self v i true hi]
  · rw [get?_listSet_ne v x i true hix]
    exact h

/-- A `true` flag after marking `x` was either at `x` or already `true`. -/
theorem listSet_true_cases (v : List Bool) (x i : Nat)
    (h : (listSet v x true)[i]? = some true) : i = x ∨ v[i]? = some true := by
  by_cases hix : i = x
  · exact Or.inl hix
  · rw [get?_listSet_ne v x i true hix] at h
    exact Or.inr h

/-- Unpacking the executable well-formedness check of a total DFA. -/
theorem dfaTotalWF_spec (d : DfaE) (hwf : dfaTotalWF d = true) :
    d.keys = List.range d.size ∧ d.start < d.size ∧ d.heap.length = d.size ∧
      (∀ tbl, tbl ∈ d.heap → ∀ p, p ∈ tbl → ∃ t, p.2 = some t ∧ t < d.size) := by
  simp only [dfaTotalWF, Bool.and_eq_true, decide_eq_true_eq, beq_iff_eq,
    List.all_eq_true] at hwf
  obtain ⟨⟨⟨hk, hs⟩, hlen⟩, htbl⟩ := hwf
  refine ⟨hk, hs, hlen, ?_⟩
  intro tbl htl p hp
  have := htbl tbl htl p hp
  cases hv : p.2 with
  | none => rw [hv] at this; exact absurd this (by simp)
  | some t =>
      rw [hv] at this
      exact ⟨t, rfl, by simpa using this⟩

/-- What a successful transition scan guarantees: the accumulated queue is
kept and only entry targets are appended, and every scanned entry is defined
with its target either already visited or in the output queue. -/
theorem scanSuccs_ok_spec (visited : List Bool) :
    ∀ entries acc out, scanSuccs visited entries acc = .ok out →
      (∀ t, t ∈ acc → t ∈ out) ∧
      (∀ t, t ∈ out → t ∈ acc ∨ ∃ c, (c, some t) ∈ entries) ∧
      (∀ p, p ∈ entries → ∃ t, p.2 = some t ∧ (visited[t]? = some true ∨ t ∈ out)) := by
  intro entries
  induction entries with
  | nil =>
      intro acc out h
      simp only [scanSuccs] at h
      injection h with h
      subst h
      exact ⟨fun t ht => ht, fun t ht => Or.inl ht, by simp⟩
  | cons p rest ih =>
      obtain ⟨c, vo⟩ := p
      intro acc out h
      cases vo with
      | none => simp [scanSuccs] at h
      | some t =>
          rw [scanSuccs] at h
          cases hvt : visited[t]? with
          | none => rw [hvt] at h; exact absurd h (by simp)
          | some b =>
              rw [hvt] at h
              obtain ⟨h1, h2, h3⟩ := ih _ _ h
              constructor
              · intro t' ht'
                apply h1
                cases b <;> simp [ht']
              · constructor
                · intro t' ht'
                  rcases h2 t' ht' with hacc | ⟨c', hc'⟩
                  · cases b with
                    | true => exact Or.inl hacc
                    | false =>
                        simp only [Bool.false_eq_true, if_false, List.mem_append,
                          List.mem_singleton] at hacc
                        rcases hacc with hacc | rfl
                        · exact Or.inl hacc
                        · exact Or.inr ⟨c, by simp⟩
                  · exact Or.inr ⟨c', by simp [hc']⟩
                · intro p hp
                  rcases List.mem_cons.mp hp with rfl | hp'
                  · refine ⟨t, rfl, ?_⟩
                    cases b with
                    | true => exact Or.inl hvt
                    | false =>
                        refine Or.inr (h1 t ?_)
                        simp
                  · exact h3 p hp'

/-- A transition scan over defined entries with in-range targets succeeds. -/
theorem scanSuccs_exists (visited : List Bool) :
    ∀ entries acc,
      (∀ p, p ∈ entries → ∃ t, p.2 = some t ∧ t < visited.length) →
      ∃ out, scanSuccs visited entries acc = .ok out := by
  intro entries
  induction entries with
  | nil => intro acc _; exact ⟨acc, rfl⟩
  | cons p rest ih =>
      intro acc hbound
      obtain ⟨c, vo⟩ := p
      obtain ⟨t, hvo, ht⟩ := hbound (c, vo) (by simp)
      simp only at hvo
      subst hvo
      cases hvt : visited[t]? with
      | none =>
          rw [List.getElem?_eq_none_iff] at hvt
          omega
      | some b =>
          obtain ⟨out, hout⟩ := ih (if b then acc else acc ++ [t])
            (fun p hp => hbound p (by simp [hp]))
          refine ⟨out, ?_⟩
          rw [scanSuccs, hvt]
          exact hout

/-- The pruning BFS raises no exception on a well-formed total DFA, as long
as the visited list has the full size and the queue holds in-range indices. -/
theorem pruneLoopF_no_error (d : DfaE) (hwf : dfaTotalWF d = true) :
    ∀ fuel v q e, v.length = d.size → (∀ t, t ∈ q → t < d.size) →
      pruneLoopF d fuel v q ≠ some (.error e) := by
  obtain ⟨hk, hs, hlen, htbl⟩ := dfaTotalWF_spec d hwf
  intro fuel
  induction fuel with
  | zero =>
      intro v q e hv hq
      cases q with
      | nil => simp [pruneLoopF]
      | cons x rest => simp [pruneLoopF]
  | succ fuel ih =>
      intro v q e hv hq
      cases q with
      | nil => simp [pruneLoopF]
      | cons x rest =>
          have hx : x < d.size := hq x (by simp)
          rw [pruneLoopF]
          cases hvx : v[x]? with
          | none =>
              rw [List.getElem?_eq_none_iff] at hvx
              omega
          | some b =>
              cases b with
              | true => exact ih v rest e hv (fun t ht => hq t (by simp [ht]))
              | false =>
                  simp only [Bool.false_eq_true, if_false]
                  have hxk : x ∈ d.keys := by rw [hk]; exact List.mem_range.mpr hx
                  cases hst : d.heap[x]? with
                  | none =>
                      rw [List.getElem?_eq_none_iff] at hst
                      omega
                  | some tbl =>
                      have hstl : statesLookup d x = some tbl := by
                        simp [statesLookup, hxk, hst]
                      simp only [hstl]
                      have hmem : tbl ∈ d.heap := List.getElem?_mem hst
                      have hbound : ∀ p, p ∈ tbl → ∃ t, p.2 = some t ∧
                          t < (listSet v x true).length := by
                        intro p hp
                        obtain ⟨t, hpt, htlt⟩ := htbl tbl hmem p hp
                        exact ⟨t, hpt, by rw [listSet_length, hv]; exact htlt⟩
                      obtain ⟨out, hout⟩ := scanSuccs_exists (listSet v x true) tbl rest hbound
                      simp only [hout]
                      obtain ⟨h1, h2, h3⟩ := scanSuccs_ok_spec (listSet v x true) tbl rest out hout
                      apply ih
                      · rw [listSet_length]; exact hv
                      · intro t ht
                        rcases h2 t ht with hrest | ⟨c, hc⟩
                        · exact hq t (by simp [hrest])
                        · obtain ⟨t', hpt', ht'⟩ := htbl tbl hmem (c, some t) hc
                          simp only at hpt'
                          injection hpt' with hpt'
                          subst hpt'
                          exact ht'

/-- Basic facts about a successful pruning BFS run: the visited list keeps
its length, already-true flags stay true, and every queued index ends up
marked. -/
theorem pruneLoopF_ok_basic (d : DfaE) :
    ∀ fuel v q v', pruneLoopF d fuel v q = some (.ok v') →
      v'.length = v.length ∧
      (∀ i : Nat, v[i]? = some true → v'[i]? = some true) ∧
      (∀ t, t ∈ q → v'[t]? = some true) := by
  intro fuel
  induction fuel with
  | zero =>
      intro v q v' h
      cases q with
      | nil =>
          simp only [pruneLoopF] at h
          injection h with h
          injection h with h
          subst h
          exact ⟨rfl, fun i hi => hi, by simp⟩
      | cons x rest => simp [pruneLoopF] at h
  | succ fuel ih =>
      intro v q v' h
      cases q with
      | nil =>
          simp only [pruneLoopF] at h
          injection h with h
          injection h with h
          subst h
          exact ⟨rfl, fun i hi => hi, by simp⟩
      | cons x rest =>
          rw [pruneLoopF] at h
          cases hvx : v[x]? with
          | none => simp only [hvx] at h; exact absurd h (by simp)
          | some b =>
              simp only [hvx] at h
              cases b with
              | true =>
                  simp only [eq_self_iff_true, if_true] at h
                  obtain ⟨hl, hm, hqk⟩ := ih v rest v' h
                  refine ⟨hl, hm, ?_⟩
                  intro t ht
                  rcases List.mem_cons.mp ht with rfl | ht'
                  · exact hm t hvx
                  · exact hqk t ht'
              | false =>
                  simp only [Bool.false_eq_true, if_false] at h
                  cases hst : statesLookup d x with
                  | none => simp only [hst] at h; exact absurd h (by simp)
                  | some tbl =>
                      simp only [hst] at h
                      cases hsc : scanSuccs (listSet v x true) tbl rest with
                      | error e => simp only [hsc] at h; exact absurd h (by simp)
                      | ok out =>
                          simp only [hsc] at h
                          obtain ⟨hl, hm, hqk⟩ := ih (listSet v x true) out v' h
                          obtain ⟨s1, s2, s3⟩ :=
                            scanSuccs_ok_spec (listSet v x true) tbl rest out hsc
                          have hxlt : x < v.length := by
                            by_contra hc
                            rw [List.getElem?_eq_none_iff.mpr (by omega)] at hvx
                            exact Option.noConfusion hvx
                          refine ⟨by rw [hl, listSet_length], ?_, ?_⟩
                          · intro i hi
                            exact hm i (listSet_true_mono v x i hi)
                          · intro t ht
                            rcases List.mem_cons.mp ht with rfl | ht'
                            · exact hm t (get?_listSet_self v t true hxlt)
                            · exact hqk t (s1 t ht')

/-- A successful pruning BFS preserves and completes the closure invariant:
if every already-marked state has all its transition targets marked or
queued, then in the final marking every marked state has all its targets
marked. -/
theorem pruneLoopF_ok_closed (d : DfaE) :
    ∀ fuel v q v', pruneLoopF d fuel v q = some (.ok v') →
      (∀ (i : Nat) tbl, v[i]? = some true → statesLookup d i = some tbl →
        ∀ p, p ∈ tbl → ∃ t, p.2 = some t ∧ (v[t]? = some true ∨ t ∈ q)) →
      ∀ (i : Nat) tbl, v'[i]? = some true → statesLookup d i = some tbl →
        ∀ p, p ∈ tbl → ∃ t, p.2 = some t ∧ v'[t]? = some true := by
  intro fuel
  induction fuel with
  | zero =>
      intro v q v' h hinv
      cases q with
      | nil =>
          simp only [pruneLoopF] at h
          injection h with h
          injection h with h
          subst h
          intro i tbl hi hstl p hp
          obtain ⟨t, hpt, hto⟩ := hinv i tbl hi hstl p hp
          rcases hto with ht | ht
          · exact ⟨t, hpt, ht⟩
          · exact absurd ht (by simp)
      | cons x rest => simp [pruneLoopF] at h
  | succ fuel ih =>
      intro v q v' h hinv
      cases q with
      | nil =>
          simp only [pruneLoopF] at h
          injection h with h
          injection h with h
          subst h
          intro i tbl hi hstl p hp
          obtain ⟨t, hpt, hto⟩ := hinv i tbl hi hstl p hp
          rcases hto with ht | ht
          · exact ⟨t, hpt, ht⟩
          · exact absurd ht (by simp)
      | cons x rest =>
          rw [pruneLoopF] at h
          cases hvx : v[x]? with
          | none => simp only [hvx] at h; exact absurd h (by simp)
          | some b =>
              simp only [hvx] at h
              cases b with
              | true =>
                  simp only [eq_self_iff_true, if_true] at h
                  apply ih v rest v' h
                  intro i tbl hi hstl p hp
                  obtain ⟨t, hpt, hto⟩ := hinv i tbl hi hstl p hp
                  rcases hto with ht | ht
                  · exact ⟨t, hpt, Or.inl ht⟩
                  · rcases List.mem_cons.mp ht with rfl | ht'
                    · exact ⟨t, hpt, Or.inl hvx⟩
                    · exact ⟨t, hpt, Or.inr ht'⟩
              | false =>
                  simp only [Bool.false_eq_true, if_false] at h
                  cases hst : statesLookup d x with
                  | none => simp only [hst] at h; exact absurd h (by simp)
                  | some tbl₀ =>
                      simp only [hst] at h
                      cases hsc : scanSuccs (listSet v x true) tbl₀ rest with
                      | error e => simp only [hsc] at h; exact absurd h (by simp)
                      | ok out =>
                          simp only [hsc] at h
                          obtain ⟨s1, s2, s3⟩ :=
                            scanSuccs_ok_spec (listSet v x true) tbl₀ rest out hsc
                          have hxlt : x < v.length := by
                            by_contra hc
                            rw [List.getElem?_eq_none_iff.mpr (by omega)] at hvx
                            exact Option.noConfusion hvx
                          apply ih (listSet v x true) out v' h
                          intro i tbl hi hstl p hp
                          rcases listSet_true_cases v x i hi with rfl | hvi
                          · have htbl : tbl = tbl₀ := by
                              rw [hstl] at hst
                              injection hst
                            subst htbl
                            exact s3 p hp
                          · obtain ⟨t, hpt, hto⟩ := hinv i tbl hvi hstl p hp
                            rcases hto with ht | ht
                            · exact ⟨t, hpt, Or.inl (listSet_true_mono v x t ht)⟩
                            · rcases List.mem_cons.mp ht with rfl | ht'
                              · exact ⟨t, hpt, Or.inl (get?_listSet_self v t true hxlt)⟩
                              · exact ⟨t, hpt, Or.inr (s1 t ht')⟩

/-- A successful pruning BFS marks only reachable states, provided every
already-marked or queued state is reachable. -/
theorem pruneLoopF_ok_reach (d : DfaE) :
    ∀ fuel v q v', pruneLoopF d fuel v q = some (.ok v') →
      (∀ i : Nat, v[i]? = some true → Reach d i) → (∀ t, t ∈ q → Reach d t) →
      ∀ i : Nat, v'[i]? = some true → Reach d i := by
  intro fuel
  induction fuel with
  | zero =>
      intro v q v' h hv hq
      cases q with
      | nil =>
          simp only [pruneLoopF] at h
          injection h with h
          injection h with h
          subst h
          exact hv
      | cons x rest => simp [pruneLoopF] at h
  | succ fuel ih =>
      intro v q v' h hv hq
      cases q with
      | nil =>
          simp only [pruneLoopF] at h
          injection h with h
          injection h with h
          subst h
          exact hv
      | cons x rest =>
          rw [pruneLoopF] at h
          cases hvx : v[x]? with
          | none => simp only [hvx] at h; exact absurd h (by simp)
          | some b =>
              simp only [hvx] at h
              cases b with
              | true =>
                  simp only [eq_self_iff_true, if_true] at h
                  exact ih v rest v' h hv (fun t ht => hq t (by simp [ht]))
              | false =>
                  simp only [Bool.false_eq_true, if_false] at h
                  cases hst : statesLookup d x with
                  | none => simp only [hst] at h; exact absurd h (by simp)
                  | some tbl₀ =>
                      simp only [hst] at h
                      cases hsc : scanSuccs (listSet v x true) tbl₀ rest with
                      | error e => simp only [hsc] at h; exact absurd h (by simp)
                      | ok out =>
                          simp only [hsc] at h
                          obtain ⟨s1, s2, s3⟩ :=
                            scanSuccs_ok_spec (listSet v x true) tbl₀ rest out hsc
                          have hrx : Reach d x := hq x (by simp)
                          apply ih (listSet v x true) out v' h
                          · intro i hi
                            rcases listSet_true_cases v x i hi with rfl | hvi
                            · exact hrx
                            · exact hv i hvi
                          · intro t ht
                            rcases s2 t ht with hrest | ⟨c, hc⟩
                            · exact hq t (by simp [hrest])
                            · exact Reach.step hrx hst hc

/-- Splitting the witness of an unvisited flag over a cons cell. -/
theorem exists_flag_cons (b : Bool) (rest : List Bool) (i k : Nat) :
    (∃ j : Nat, j < (b :: rest).length ∧ (b :: rest)[j]? = some false ∧ k = i + j) ↔
      ((b = false ∧ k = i) ∨
        (∃ j : Nat, j < rest.length ∧ rest[j]? = some false ∧ k = (i + 1) + j)) := by
  constructor
  · rintro ⟨j, hj, hjf, rfl⟩
    cases j with
    | zero =>
        left
        simp only [List.getElem?_cons_zero] at hjf
        injection hjf with hjf
        exact ⟨hjf, by omega⟩
    | succ j =>
        right
        refine ⟨j, by simp at hj; omega, by simpa using hjf, by omega⟩
  · rintro (⟨rfl, rfl⟩ | ⟨j, hj, hjf, rfl⟩)
    · exact ⟨0, by simp, by simp, by omega⟩
    · exact ⟨j + 1, by simp; omega, by simpa using hjf, by omega⟩

/-- The final sweep of the pruning pass, characterized: on a dict whose keys
contain every unvisited index, it succeeds, and it keeps exactly the keys
that do not correspond to an unvisited flag. -/
theorem popLoop_spec :
    ∀ (vis : List Bool) (keys : List Nat) (i : Nat), keys.Nodup →
      (∀ j : Nat, j < vis.length → vis[j]? = some false → (i + j) ∈ keys) →
      ∃ keys', popLoop keys vis i = .ok keys' ∧
        (∀ k, k ∈ keys' ↔ (k ∈ keys ∧
          ¬ ∃ j : Nat, j < vis.length ∧ vis[j]? = some false ∧ k = i + j)) := by
  intro vis
  induction vis with
  | nil =>
      intro keys i _ _
      exact ⟨keys, rfl, by simp⟩
  | cons b rest ih =>
      intro keys i hnd hin
      cases b with
      | true =>
          obtain ⟨keys', hok, hchar⟩ := ih keys (i + 1) hnd (by
            intro j hj hjf
            have := hin (j + 1) (by simp; omega) (by simpa using hjf)
            have harith : i + (j + 1) = (i + 1) + j := by omega
            rwa [harith] at this)
          refine ⟨keys', by simpa [popLoop] using hok, ?_⟩
          intro k
          rw [hchar k, exists_flag_cons]
          simp
      | false =>
          have hi : i ∈ keys := by
            have := hin 0 (by simp) (by simp)
            simpa using this
          have hpop : dictPopKey keys i = .ok (keys.filter (fun k => decide (k ≠ i))) := by
            simp [dictPopKey, hi]
          obtain ⟨keys', hok, hchar⟩ := ih (keys.filter (fun k => decide (k ≠ i))) (i + 1)
              (hnd.filter _) (by
            intro j hj hjf
            have hmem := hin (j + 1) (by simp; omega) (by simpa using hjf)
            have harith : i + (j + 1) = (i + 1) + j := by omega
            rw [harith] at hmem
            rw [List.mem_filter]
            exact ⟨hmem, by simp; omega⟩)
          refine ⟨keys', ?_, ?_⟩
          · simp only [popLoop, hpop]
            exact hok
          · intro k
            rw [hchar k, exists_flag_cons, List.mem_filter]
            constructor
            · rintro ⟨⟨hk, hki⟩, hnex⟩
              rw [decide_eq_true_eq] at hki
              refine ⟨hk, ?_⟩
              rintro (⟨_, rfl⟩ | hex)
              · exact hki rfl
              · exact hnex hex
            · rintro ⟨hk, hnex⟩
              refine ⟨⟨hk, ?_⟩, fun hex => hnex (Or.inr hex)⟩
              rw [decide_eq_true_eq]
              intro hki
              exact hnex (Or.inl ⟨by simp, hki⟩)

/-- A replicate of `false` never reads back `true`. -/
theorem replicate_false_ne_true (n i : Nat) :
    ¬ (List.replicate n false)[i]? = some true := by
  intro h
  rcases Nat.lt_or_ge i n with hi | hi
  · rw [List.getElem?_replicate, if_pos hi] at h
    injection h with h
    exact Bool.noConfusion h
  · rw [List.getElem?_eq_none_iff.mpr (by simpa using hi)] at h
    exact Option.noConfusion h

/-- C6 (amended): on a well-formed DFA all of whose states carry a defined
in-range transition for every symbol of their transitions dict, the pruning
pass completes without error, removes from the states dict exactly the
indices the BFS from the start never visits (equivalently: keeps exactly the
reachable ones), leaves every retained state's transitions targeting retained
states, and leaves size, alphabet, state objects, start and accept indices
unchanged. -/
theorem c6_prune_reachability (d : DfaE) (hwf : dfaTotalWF d = true) :
    C6Conclusion d := by
  obtain ⟨hk, hs, hlen, htbl⟩ := dfaTotalWF_spec d hwf
  have hkeylen : d.keys.length = d.size := by rw [hk]; exact List.length_range _
  have hv0len : (List.replicate d.keys.length false).length = d.size := by
    rw [List.length_replicate, hkeylen]
  have hq0 : ∀ t, t ∈ [d.start] → t < d.size := by
    intro t ht
    simp only [List.mem_singleton] at ht
    subst ht
    exact hs
  obtain ⟨fuel₀, r, hr⟩ :=
    pruneLoopF_terminates d (List.replicate d.keys.length false) [d.start]
  cases r with
  | error e =>
      exact absurd hr (pruneLoopF_no_error d hwf fuel₀ _ _ e hv0len hq0)
  | ok v' =>
      obtain ⟨hlen', hmono, hqtrue⟩ := pruneLoopF_ok_basic d fuel₀ _ _ v' hr
      have hv'len : v'.length = d.size := by rw [hlen', hv0len]
      have hclosed := pruneLoopF_ok_closed d fuel₀ _ _ v' hr (by
        intro i tbl hi _ _ _
        exact absurd hi (replicate_false_ne_true _ _))
      have hreach := pruneLoopF_ok_reach d fuel₀ _ _ v' hr (by
        intro i hi
        exact absurd hi (replicate_false_ne_true _ _)) (by
        intro t ht
        simp only [List.mem_singleton] at ht
        subst ht
        exact Reach.start)
      have hreach2 : ∀ i : Nat, Reach d i → v'[i]? = some true := by
        intro i hri
        induction hri with
        | start => exact hqtrue d.start (by simp)
        | step h1 h2 h3 ihh =>
            obtain ⟨t', hpt', ht'⟩ := hclosed _ _ ihh h2 _ h3
            simp only at hpt'
            injection hpt' with hpt'
            subst hpt'
            exact ht'
      obtain ⟨keys', hpok, hchar⟩ := popLoop_spec v' d.keys 0
        (by rw [hk]; exact List.nodup_range _)
        (by
          intro j hj _
          rw [hk]
          exact List.mem_range.mpr (by omega))
      simp only [Nat.zero_add] at hchar
      have hkeys'true : ∀ k, k ∈ keys' ↔ (k ∈ d.keys ∧ v'[k]? = some true) := by
        intro k
        rw [hchar k]
        constructor
        · rintro ⟨hkk, hnex⟩
          refine ⟨hkk, ?_⟩
          have hklt : k < d.size := by rw [hk] at hkk; exact List.mem_range.mp hkk
          cases hv : v'[k]? with
          | none =>
              rw [List.getElem?_eq_none_iff] at hv
              omega
          | some b =>
              cases b with
              | true => rfl
              | false => exact absurd ⟨k, by omega, hv, rfl⟩ hnex
        · rintro ⟨hkk, htrue⟩
          refine ⟨hkk, ?_⟩
          rintro ⟨j, hj, hjf, rfl⟩
          rw [htrue] at hjf
          injection hjf with hjf
          exact Bool.noConfusion hjf
      refine ⟨fuel₀, { d with keys := keys' }, ?_, rfl, rfl, rfl, rfl, rfl, ?_, ?_⟩
      · intro fuel hf
        have hrf := pruneLoopF_mono d fuel₀ fuel _ _ (.ok v') hf hr
        simp only [removeRedundantStates, hrf, hpok]
      · intro i
        rw [hkeys'true i]
        constructor
        · rintro ⟨hik, htrue⟩
          exact ⟨hik, hreach i htrue⟩
        · rintro ⟨hik, hri⟩
          exact ⟨hik, hreach2 i hri⟩
      · intro i hik tbl hstl c t hmem
        rw [hkeys'true] at hik
        obtain ⟨hikk, htrue⟩ := hik
        obtain ⟨t', hpt', ht'⟩ := hclosed i tbl htrue hstl (c, some t) hmem
        simp only at hpt'
        injection hpt' with hpt'
        subst hpt'
        rw [hkeys'true t]
        have htbl_mem : tbl ∈ d.heap := by
          simp only [statesLookup] at hstl
          rcases Decidable.em (i ∈ d.keys) with hik' | hik'
          · rw [if_pos hik'] at hstl
            exact List.getElem?_mem hstl
          · rw [if_neg hik'] at hstl
            exact Option.noConfusion hstl
        obtain ⟨t'', hpt'', ht''⟩ := htbl tbl htbl_mem (c, some t) hmem
        simp only at hpt''
        injection hpt'' with hpt''
        subst hpt''
        exact ⟨by rw [hk]; exact List.mem_range.mpr ht'', ht'⟩

/-- The number of `k`-combinations of a list is the binomial coefficient. -/
theorem combinations_length (l : List Nat) :
    ∀ k, (combinations k l).length = Nat.choose l.length k := by
  induction l with
  | nil =>
      intro k
      cases k with
      | zero => rfl
      | succ k => rfl
  | cons x xs ih =>
      intro k
      cases k with
      | zero => rfl
      | succ k =>
          simp only [combinations, List.length_append, List.length_map, ih k, ih (k + 1),
            List.length_cons, Nat.choose_succ_succ]

/-- The power-set dictionary of `get_power_set` holds `2 ^ n` entries. -/
theorem powerSetList_length (n : Nat) : (powerSetList n).length = 2 ^ n := by
  rw [powerSetList, List.length_flatten, List.map_map]
  have hf : ((List.range (n + 1)).map
      (List.length ∘ fun k => combinations k (List.range n))).sum
      = ((List.range (n + 1)).map (fun k => Nat.choose n k)).sum := by
    congr 1
    apply List.map_congr_left
    intro k _
    simp [combinations_length, List.length_range]
  rw [hf]
  have hbridge : ((List.range (n + 1)).map (fun k => Nat.choose n k)).sum
      = ∑ i in Finset.range (n + 1), Nat.choose n i := rfl
  rw [hbridge]
  exact Nat.sum_range_choose n

/-- Membership in `combinations`: exactly the sublists of the given length,
mirroring `itertools.combinations`. -/
theorem mem_combinations (l : List Nat) :
    ∀ (k : Nat) (ls : List Nat),
      ls ∈ combinations k l ↔ (List.Sublist ls l ∧ ls.length = k) := by
  induction l with
  | nil =>
      intro k ls
      cases k with
      | zero =>
          simp only [combinations, List.mem_singleton]
          constructor
          · rintro rfl
            exact ⟨List.Sublist.refl [], rfl⟩
          · rintro ⟨hs, _⟩
            exact List.sublist_nil.mp hs
      | succ k =>
          simp only [combinations, List.not_mem_nil, false_iff, not_and]
          intro hs
          have := List.sublist_nil.mp hs
          subst this
          simp
  | cons x xs ih =>
      intro k ls
      cases k with
      | zero =>
          simp only [combinations, List.mem_singleton]
          constructor
          · rintro rfl
            exact ⟨List.nil_sublist _, rfl⟩
          · rintro ⟨_, hlen⟩
            exact List.length_eq_zero.mp hlen
      | succ k =>
          rw [combinations, List.mem_append, List.mem_map]
          constructor
          · rintro (⟨t, ht, rfl⟩ | h)
            · rw [ih k t] at ht
              exact ⟨List.Sublist.cons₂ x ht.1, by simp [ht.2]⟩
            · rw [ih (k + 1) ls] at h
              exact ⟨List.Sublist.cons x h.1, h.2⟩
          · rintro ⟨hs, hlen⟩
            rcases List.sublist_cons_iff.mp hs with h | ⟨r, rfl, hr⟩
            · right
              rw [ih (k + 1) ls]
              exact ⟨h, hlen⟩
            · left
              exact ⟨r, (ih k r).mpr ⟨hr, by simpa using hlen⟩, rfl⟩

/-- A strictly ascending list inside the window of `range'` is a sublist of
it. -/
theorem sublist_range'_of_sorted :
    ∀ (m s : Nat) (l : List Nat), List.Pairwise (· < ·) l →
      (∀ x, x ∈ l → s ≤ x ∧ x < s + m) → List.Sublist l (List.range' s m) := by
  intro m
  induction m with
  | zero =>
      intro s l _ hb
      cases l with
      | nil => exact List.nil_sublist _
      | cons y t =>
          have := hb y (by simp)
          omega
  | succ m ih =>
      intro s l hp hb
      cases l with
      | nil => exact List.nil_sublist _
      | cons y t =>
          have hys := hb y (by simp)
          have hhead : ∀ x, x ∈ t → y < x := by
            intro x hx
            exact (List.pairwise_cons.mp hp).1 x hx
          rcases Nat.eq_or_lt_of_le hys.1 with hy | hy
          · subst hy
            refine List.Sublist.cons₂ s (ih (s + 1) t (List.pairwise_cons.mp hp).2 ?_)
            intro x hx
            have h1 := hhead x hx
            have h2 := hb x (by simp [hx])
            omega
          · refine List.Sublist.cons s (ih (s + 1) (y :: t) hp ?_)
            intro x hx
            rcases List.mem_cons.mp hx with rfl | hx'
            · omega
            · have h1 := hhead x hx'
              have h2 := hb x (by simp [hx'])
              omega

/-- A strictly ascending list of indices below `n` is a sublist of
`range n`. -/
theorem sorted_bounded_sublist_range (l : List Nat) (n : Nat)
    (hp : List.Pairwise (· < ·) l) (hb : ∀ x, x ∈ l → x < n) :
    List.Sublist l (List.range n) := by
  rw [List.range_eq_range']
  exact sublist_range'_of_sorted n 0 l hp (fun x hx => ⟨Nat.zero_le x, by simpa using hb x hx⟩)

/-- The power-set dictionary holds exactly the strictly ascending subsets of
the state indices. -/
theorem mem_powerSetList (n : Nat) (s : List Nat) :
    s ∈ powerSetList n ↔ (List.Pairwise (· < ·) s ∧ ∀ x, x ∈ s → x < n) := by
  rw [powerSetList, List.mem_flatten]
  constructor
  · rintro ⟨l, hl, hsl⟩
    rw [List.mem_map] at hl
    obtain ⟨k, _, rfl⟩ := hl
    rw [mem_combinations] at hsl
    refine ⟨List.Pairwise.sublist hsl.1 (List.pairwise_lt_range n), ?_⟩
    intro x hx
    have := hsl.1.subset hx
    simpa using this
  · rintro ⟨hp, hb⟩
    refine ⟨combinations s.length (List.range n), ?_, ?_⟩
    · rw [List.mem_map]
      refine ⟨s.length, ?_, rfl⟩
      rw [List.mem_range]
      have := (sorted_bounded_sublist_range s n hp hb).length_le
      simp only [List.length_range] at this
      omega
    · rw [mem_combinations]
      exact ⟨sorted_bounded_sublist_range s n hp hb, rfl⟩

/-- Combinations of a duplicate-free list are duplicate-free. -/
theorem combinations_nodup (l : List Nat) (hnd : l.Nodup) :
    ∀ k, (combinations k l).Nodup := by
  induction l with
  | nil =>
      intro k
      cases k with
      | zero => simp [combinations]
      | succ k => simp [combinations]
  | cons x xs ih =>
      intro k
      rw [List.nodup_cons] at hnd
      cases k with
      | zero => simp [combinations]
      | succ k =>
          rw [combinations]
          apply List.Nodup.append
          · exact (ih hnd.2 k).map (fun a b h => by injection h)
          · exact ih hnd.2 (k + 1)
          · intro a ha hb
            rw [List.mem_map] at ha
            obtain ⟨t, _, rfl⟩ := ha
            rw [mem_combinations] at hb
            exact hnd.1 (hb.1.subset (by simp))

/-- The power-set dictionary has no duplicate subset. -/
theorem powerSetList_nodup (n : Nat) : (powerSetList n).Nodup := by
  rw [powerSetList, List.nodup_flatten]
  constructor
  · intro l hl
    rw [List.mem_map] at hl
    obtain ⟨k, _, rfl⟩ := hl
    exact combinations_nodup _ (List.nodup_range n) k
  · rw [List.pairwise_map]
    refine (List.pairwise_lt_range (n + 1)).imp ?_
    intro a b hab s hsa hsb
    rw [mem_combinations] at hsa hsb
    omega

/-- The power-set dictionary enumerates subsets by increasing size. -/
theorem powerSetList_sorted_sizes (n : Nat) :
    (powerSetList n).Pairwise (fun a b => a.length ≤ b.length) := by
  rw [powerSetList, List.pairwise_flatten]
  constructor
  · intro l hl
    rw [List.mem_map] at hl
    obtain ⟨k, _, rfl⟩ := hl
    apply List.pairwise_of_forall_mem_list
    intro a ha b hb
    rw [mem_combinations] at ha hb
    omega
  · rw [List.pairwise_map]
    refine (List.pairwise_lt_range (n + 1)).imp ?_
    intro a b hab s hsa t hst
    rw [mem_combinations] at hsa hst
    omega

/-- A dictionary position found by `listIndex` reads back the element. -/
theorem listIndex_get {α : Type} [DecidableEq α] :
    ∀ (l : List α) (x : α) (k : Nat), listIndex l x = some k → l[k]? = some x := by
  intro l
  induction l with
  | nil => intro x k h; simp [listIndex] at h
  | cons y ys ih =>
      intro x k h
      rw [listIndex] at h
      by_cases hxy : x = y
      · rw [if_pos hxy] at h
        injection h with h
        subst h
        simp [hxy]
      · rw [if_neg hxy] at h
        cases hl : listIndex ys x with
        | none => rw [hl] at h; simp at h
        | some k' =>
            rw [hl] at h
            simp only [Option.map_some'] at h
            injection h with h
            subst h
            simpa using ih x k' hl

/-- On a duplicate-free dictionary, reading a position back gives its
`listIndex`. -/
theorem listIndex_of_get {α : Type} [DecidableEq α] :
    ∀ (l : List α) (x : α) (k : Nat), l.Nodup → l[k]? = some x →
      listIndex l x = some k := by
  intro l
  induction l with
  | nil => intro x k _ h; simp at h
  | cons y ys ih =>
      intro x k hnd h
      rw [List.nodup_cons] at hnd
      cases k with
      | zero =>
          simp only [List.getElem?_cons_zero] at h
          injection h with h
          subst h
          simp [listIndex]
      | succ k =>
          simp only [List.getElem?_cons_succ] at h
          have hmem : x ∈ ys := List.getElem?_mem h
          have hxy : ¬ x = y := by
            rintro rfl
            exact hnd.1 hmem
          rw [listIndex, if_neg hxy, ih x k hnd.2 h]
          rfl

/-- Inserting via `insertAsc` is a permutation of consing. -/
theorem perm_insertAsc (x : Nat) : ∀ l : List Nat, (insertAsc x l).Perm (x :: l) := by
  intro l
  induction l with
  | nil => exact List.Perm.refl _
  | cons y ys ih =>
      rw [insertAsc]
      by_cases hxy : x ≤ y
      · rw [if_pos hxy]
      · rw [if_neg hxy]
        exact (List.Perm.cons y ih).trans (List.Perm.swap x y ys)

/-- Sorting by `insertionSort` permutes the input. -/
theorem perm_insertionSort : ∀ l : List Nat, (insertionSort l).Perm l := by
  intro l
  induction l with
  | nil => exact List.Perm.refl _
  | cons x xs ih => exact (perm_insertAsc x (insertionSort xs)).trans (List.Perm.cons x ih)

/-- Inserting into an ascending list keeps it ascending. -/
theorem pairwise_le_insertAsc (x : Nat) :
    ∀ l : List Nat, l.Pairwise (· ≤ ·) → (insertAsc x l).Pairwise (· ≤ ·) := by
  intro l
  induction l with
  | nil => intro _; simp [insertAsc]
  | cons y ys ih =>
      intro hp
      rw [List.pairwise_cons] at hp
      rw [insertAsc]
      by_cases hxy : x ≤ y
      · rw [if_pos hxy]
        rw [List.pairwise_cons]
        refine ⟨?_, List.pairwise_cons.mpr hp⟩
        intro z hz
        rcases List.mem_cons.mp hz with rfl | hz'
        · exact hxy
        · exact le_trans hxy (hp.1 z hz')
      · rw [if_neg hxy]
        rw [List.pairwise_cons]
        refine ⟨?_, ih hp.2⟩
        intro z hz
        have := (perm_insertAsc x ys).mem_iff.mp hz
        rcases List.mem_cons.mp this with rfl | hz'
        · omega
        · exact hp.1 z hz'

/-- Sorting by `insertionSort` yields an ascending list. -/
theorem pairwise_le_insertionSort : ∀ l : List Nat, (insertionSort l).Pairwise (· ≤ ·) := by
  intro l
  induction l with
  | nil => simp [insertionSort]
  | cons x xs ih => exact pairwise_le_insertAsc x (insertionSort xs) ih

/-- Sorting a duplicate-free list of indices gives a strictly ascending
list. -/
theorem pairwise_lt_insertionSort (l : List Nat) (hnd : l.Nodup) :
    (insertionSort l).Pairwise (· < ·) := by
  have h1 := pairwise_le_insertionSort l
  have h2 : (insertionSort l).Nodup := ((perm_insertionSort l).nodup_iff).mpr hnd
  exact (h1.and h2).imp (fun h => lt_of_le_of_ne h.1 h.2)

/-- Python `set.add` keeps a duplicate-free list duplicate-free. -/
theorem nodup_setAdd {α : Type} [DecidableEq α] (l : List α) (x : α) (hnd : l.Nodup) :
    (setAdd l x).Nodup := by
  rw [setAdd]
  by_cases hx : x ∈ l
  · rw [if_pos hx]; exact hnd
  · rw [if_neg hx]
    exact List.Nodup.append hnd (List.nodup_singleton x) (by
      intro a ha hb
      rw [List.mem_singleton] at hb
      subst hb
      exact hx ha)

/-- Membership in a set union. -/
theorem mem_listUnion {α : Type} [DecidableEq α] :
    ∀ (b a : List α) (x : α), x ∈ listUnion a b ↔ (x ∈ a ∨ x ∈ b) := by
  intro b
  induction b with
  | nil => intro a x; simp [listUnion]
  | cons y ys ih =>
      intro a x
      show x ∈ listUnion (setAdd a y) ys ↔ _
      rw [ih (setAdd a y) x, mem_setAdd]
      constructor
      · rintro ((rfl | hx) | hx)
        · exact Or.inr (by simp)
        · exact Or.inl hx
        · exact Or.inr (by simp [hx])
      · rintro (hx | hx)
        · exact Or.inl (Or.inr hx)
        · rcases List.mem_cons.mp hx with rfl | hx'
          · exact Or.inl (Or.inl rfl)
          · exact Or.inr hx'

/-- A set union of a duplicate-free accumulator is duplicate-free. -/
theorem nodup_listUnion {α : Type} [DecidableEq α] :
    ∀ (b a : List α), a.Nodup → (listUnion a b).Nodup := by
  intro b
  induction b with
  | nil => intro a h; exact h
  | cons y ys ih => intro a h; exact ih (setAdd a y) (nodup_setAdd a y h)

/-- The state set accumulated by the epsilon-closure BFS stays
duplicate-free. -/
theorem closureLoop_nodup (n : NfaE) :
    ∀ (fuel : Nat) (sts queue out : List Nat),
      closureLoop n fuel sts queue = some out → sts.Nodup → out.Nodup := by
  intro fuel
  induction fuel with
  | zero =>
      intro sts queue out h hnd
      cases queue with
      | nil =>
          simp only [closureLoop] at h
          injection h with h
          subst h
          exact hnd
      | cons x rest => simp [closureLoop] at h
  | succ fuel ih =>
      intro sts queue out h hnd
      cases queue with
      | nil =>
          simp only [closureLoop] at h
          injection h with h
          subst h
          exact hnd
      | cons x rest =>
          rw [closureLoop] at h
          exact ih _ _ out h (nodup_setAdd sts x hnd)

/-- An epsilon closure computed by `convert_to_dfa_state` is duplicate-free. -/
theorem convertToDfaState_nodup (n : NfaE) (fuel i : Nat) (cl : List Nat)
    (h : convertToDfaState n fuel i = some cl) : cl.Nodup := by
  rw [convertToDfaState] at h
  cases hc : closureLoop n fuel (setAdd [] i) (n.trans i none) with
  | none => rw [hc] at h; exact absurd h (by simp)
  | some out =>
      rw [hc] at h
      simp only [Option.map_some'] at h
      injection h with h
      subst h
      exact ((perm_insertionSort out).nodup_iff).mpr
        (closureLoop_nodup n fuel _ _ out hc (by simp [setAdd]))

/-- What the inner closure-union fold computes: the accumulated set plus the
members of the epsilon closures of all listed successors, duplicate-free. -/
theorem unionClosures_spec (n : NfaE) (fuel : Nat) :
    ∀ (targets acc u : List Nat), unionClosures n fuel acc targets = some u →
      (∀ x : Nat, x ∈ u ↔ (x ∈ acc ∨ ∃ r, r ∈ targets ∧ ∃ cl,
        convertToDfaState n fuel r = some cl ∧ x ∈ cl)) ∧
      (acc.Nodup → u.Nodup) := by
  intro targets
  induction targets with
  | nil =>
      intro acc u h
      simp only [unionClosures] at h
      injection h with h
      subst h
      exact ⟨fun x => by simp, fun h => h⟩
  | cons t rest ih =>
      intro acc u h
      rw [unionClosures] at h
      cases hcl : convertToDfaState n fuel t with
      | none => rw [hcl] at h; exact absurd h (by simp)
      | some cl =>
          rw [hcl] at h
          obtain ⟨hmem, hnd⟩ := ih (listUnion acc cl) u h
          constructor
          · intro x
            rw [hmem x, mem_listUnion]
            constructor
            · rintro ((hx | hx) | ⟨r, hr, hcl', hx⟩)
              · exact Or.inl hx
              · exact Or.inr ⟨t, by simp, cl, hcl, hx⟩
              · exact Or.inr ⟨r, by simp [hr], hcl', hx⟩
            · rintro (hx | ⟨r, hr, cl', hcl', hx⟩)
              · exact Or.inl (Or.inl hx)
              · rcases List.mem_cons.mp hr with rfl | hr'
                · rw [hcl] at hcl'
                  injection hcl' with hcl'
                  subst hcl'
                  exact Or.inl (Or.inr hx)
                · exact Or.inr ⟨r, hr', cl', hcl', hx⟩
          · intro hand
            exact hnd (nodup_listUnion cl acc hand)

/-- What the per-subset fold of `convert_to_dfa` computes on a symbol: the
union, over every subset member and every of its successors on the symbol,
of the successor's epsilon closure, duplicate-free. -/
theorem unionOverSubset_spec (n : NfaE) (fuel : Nat) (a : Char) :
    ∀ (s acc u : List Nat), unionOverSubset n fuel acc s a = some u →
      (∀ x : Nat, x ∈ u ↔ (x ∈ acc ∨ ∃ q, q ∈ s ∧ ∃ r, r ∈ n.trans q (some a) ∧
        ∃ cl, convertToDfaState n fuel r = some cl ∧ x ∈ cl)) ∧
      (acc.Nodup → u.Nodup) := by
  intro s
  induction s with
  | nil =>
      intro acc u h
      simp only [unionOverSubset] at h
      injection h with h
      subst h
      exact ⟨fun x => by simp, fun h => h⟩
  | cons q rest ih =>
      intro acc u h
      rw [unionOverSubset] at h
      cases huc : unionClosures n fuel acc (n.trans q (some a)) with
      | none => rw [huc] at h; exact absurd h (by simp)
      | some acc' =>
          rw [huc] at h
          obtain ⟨hmem', hnd'⟩ := unionClosures_spec n fuel _ acc acc' huc
          obtain ⟨hmem, hnd⟩ := ih acc' u h
          constructor
          · intro x
            rw [hmem x]
            constructor
            · rintro (hx | ⟨q', hq', hrest⟩)
              · rw [hmem' x] at hx
                rcases hx with hx | ⟨r, hr, hcl⟩
                · exact Or.inl hx
                · exact Or.inr ⟨q, by simp, r, hr, hcl⟩
              · exact Or.inr ⟨q', by simp [hq'], hrest⟩
            · rintro (hx | ⟨q', hq', r, hr, hcl⟩)
              · exact Or.inl ((hmem' x).mpr (Or.inl hx))
              · rcases List.mem_cons.mp hq' with rfl | hq''
                · exact Or.inl ((hmem' x).mpr (Or.inr ⟨r, hr, hcl⟩))
                · exact Or.inr ⟨q', hq'', r, hr, hcl⟩
          · intro hand
            exact hnd (hnd' hand)

/-- Dict assignment then lookup: the written key reads the new value, other
keys are unchanged. -/
theorem lookupA_assocSet {α β : Type} [DecidableEq α] :
    ∀ (l : List (α × β)) (k : α) (v : β) (x : α),
      lookupA (assocSet l k v) x = if x = k then some v else lookupA l x := by
  intro l
  induction l with
  | nil =>
      intro k v x
      by_cases hx : x = k
      · simp [assocSet, lookupA, hx]
      · simp [assocSet, lookupA, hx]
  | cons p rest ih =>
      intro k v x
      obtain ⟨k', v'⟩ := p
      rw [assocSet]
      by_cases hkk : k = k'
      · subst hkk
        by_cases hx : x = k
        · simp [lookupA, hx]
        · simp [lookupA, hx]
      · rw [if_neg hkk]
        by_cases hx : x = k'
        · subst hx
          rw [lookupA, if_pos rfl, lookupA, if_pos rfl, if_neg (by intro h; exact hkk h.symm)]
        · rw [lookupA, if_neg hx, ih k v x, lookupA, if_neg hx]

/-- A fresh transitions dict holds an undefined entry exactly for the
alphabet symbols. -/
theorem lookupA_fresh (al : List Char) (b : Char) :
    lookupA (al.map (fun c => (c, (none : Option Nat)))) b =
      if b ∈ al then some none else none := by
  induction al with
  | nil => simp [lookupA]
  | cons c rest ih =>
      rw [List.map_cons, lookupA]
      by_cases hb : b = c
      · subst hb
        simp
      · rw [if_neg hb, ih]
        by_cases hbr : b ∈ rest
        · simp [hbr, hb]
        · simp [hbr, hb]

/-- What the `Dfa` constructor returns on success. -/
theorem mkDfa_ok_spec (size : Nat) (al : List Char) (st : Nat) (acc : List Nat)
    (d : DfaE) (h : mkDfa size al st acc = .ok d) :
    d.size = size ∧ d.alphabet = al ∧ d.keys = List.range size ∧
      d.heap.length = size ∧ d.start = st ∧ d.accept = acc ∧
      (∀ k : Nat, k < size → d.heap[k]? = some (al.map (fun c => (c, none)))) := by
  by_cases hs : st < size
  · by_cases ha : acc.all (fun i => decide (i < size))
    · simp only [mkDfa, hs, not_true_eq_false, if_false, ha, Except.ok.injEq] at h
      subst h
      refine ⟨rfl, rfl, rfl, by simp, rfl, rfl, ?_⟩
      intro k hk
      rw [List.getElem?_map, List.getElem?_range hk]
      rfl
    · simp [mkDfa, hs, ha] at h
  · simp [mkDfa, hs] at h

/-- A successful states-dict lookup gives the heap entry and key
membership. -/
theorem statesLookup_some (d : DfaE) (i : Nat) (tbl : TransTable)
    (h : statesLookup d i = some tbl) : d.heap[i]? = some tbl ∧ i ∈ d.keys := by
  rw [statesLookup] at h
  by_cases hik : i ∈ d.keys
  · rw [if_pos hik] at h
    exact ⟨h, hik⟩
  · rw [if_neg hik] at h
    exact absurd h (by simp)

/-- What `add_transition` does on success: all fields but the source state
object unchanged, the one transitions-dict entry overwritten. -/
theorem addTransition_ok_spec (d : DfaE) (src dst : Nat) (a : Char) (d' : DfaE)
    (h : addTransition d src dst a = .ok d') :
    d'.size = d.size ∧ d'.alphabet = d.alphabet ∧ d'.keys = d.keys ∧
      d'.start = d.start ∧ d'.accept = d.accept ∧ d'.heap.length = d.heap.length ∧
      heapTrans d' src a = some (some dst) ∧
      (∀ (k : Nat) (b : Char), ¬ (k = src ∧ b = a) →
        heapTrans d' k b = heapTrans d k b) := by
  rw [addTransition] at h
  by_cases h1 : src < d.size
  · by_cases h2 : dst < d.size
    · simp only [h1, not_true_eq_false, if_false, h2] at h
      cases hsrc : statesLookup d src with
      | none => simp only [hsrc] at h; exact Except.noConfusion h
      | some tbl =>
          simp only [hsrc] at h
          cases hdst : statesLookup d dst with
          | none => simp only [hdst] at h; exact Except.noConfusion h
          | some tbl' =>
              simp only [hdst] at h
              by_cases h3 : a ∈ d.alphabet
              · rw [if_pos h3] at h
                injection h with h
                subst h
                obtain ⟨hheap, _⟩ := statesLookup_some d src tbl hsrc
                have hsrclt : src < d.heap.length := by
                  by_contra hc
                  rw [List.getElem?_eq_none_iff.mpr (by omega)] at hheap
                  exact Option.noConfusion hheap
                refine ⟨rfl, rfl, rfl, rfl, rfl, listSet_length _ _ _, ?_, ?_⟩
                · show ((listSet d.heap src (assocSet tbl a (some dst)))[src]?).bind _ =
                    some (some dst)
                  rw [get?_listSet_self _ _ _ hsrclt]
                  simp only [Option.some_bind]
                  rw [lookupA_assocSet, if_pos rfl]
                · intro k b hkb
                  by_cases hk : k = src
                  · subst hk
                    have hb : ¬ b = a := fun hba => hkb ⟨rfl, hba⟩
                    show ((listSet d.heap k (assocSet tbl a (some dst)))[k]?).bind _ =
                      heapTrans d k b
                    rw [get?_listSet_self _ _ _ hsrclt]
                    simp only [Option.some_bind]
                    rw [lookupA_assocSet, if_neg hb, heapTrans, hheap]
                    rfl
                  · show ((listSet d.heap src (assocSet tbl a (some dst)))[k]?).bind _ =
                      heapTrans d k b
                    rw [get?_listSet_ne _ _ _ _ hk]
                    rfl
              · rw [if_neg h3] at h
                exact Except.noConfusion h
    · simp [h1, h2] at h
  · simp [h1] at h

/-- As soon as one symbol is processed for a subset, its dictionary id must
have been found. -/
theorem convertSymbols_cons_id (n : NfaE) (fuel : Nat) (pw : List (List Nat))
    (s : List Nat) (d d' : DfaE) (a : Char) (more : List Char)
    (h : convertSymbols n fuel pw s d (a :: more) = some (.ok d')) :
    ∃ k₀, listIndex pw s = some k₀ := by
  rw [convertSymbols] at h
  cases hu : unionOverSubset n fuel [] s a with
  | none => rw [hu] at h; exact absurd h (by simp)
  | some u =>
      simp only [hu] at h
      cases hid : listIndex pw s with
      | none => simp only [hid] at h; exact absurd h (by simp)
      | some k₀ => exact ⟨k₀, rfl⟩

/-- What the per-subset symbol loop of `convert_to_dfa` does on success:
other subsets' rows are untouched, and for every processed symbol the row of
the subset holds the id of the sorted closure-union target. -/
theorem convertSymbols_spec (n : NfaE) (fuel : Nat) (pw : List (List Nat))
    (s : List Nat) (k₀ : Nat) (hk₀ : listIndex pw s = some k₀) :
    ∀ (syms : List Char) (d d' : DfaE),
      convertSymbols n fuel pw s d syms = some (.ok d') →
      d'.size = d.size ∧ d'.alphabet = d.alphabet ∧ d'.keys = d.keys ∧
        d'.start = d.start ∧ d'.accept = d.accept ∧
        d'.heap.length = d.heap.length ∧
        (∀ (k : Nat) (b : Char), k ≠ k₀ → heapTrans d' k b = heapTrans d k b) ∧
        (∀ b : Char, b ∉ syms → heapTrans d' k₀ b = heapTrans d k₀ b) ∧
        (∀ b : Char, b ∈ syms → ∃ u k', unionOverSubset n fuel [] s b = some u ∧
          listIndex pw (insertionSort u) = some k' ∧
          heapTrans d' k₀ b = some (some k')) := by
  intro syms
  induction syms with
  | nil =>
      intro d d' h
      simp only [convertSymbols] at h
      injection h with h
      injection h with h
      subst h
      exact ⟨rfl, rfl, rfl, rfl, rfl, rfl, fun _ _ _ => rfl, fun _ _ => rfl, by simp⟩
  | cons a more ih =>
      intro d d' h
      rw [convertSymbols] at h
      cases hu : unionOverSubset n fuel [] s a with
      | none => rw [hu] at h; exact absurd h (by simp)
      | some u =>
          simp only [hu, hk₀] at h
          cases hid : listIndex pw (insertionSort u) with
          | none => simp only [hid] at h; exact absurd h (by simp)
          | some k' =>
              simp only [hid] at h
              cases hadd : addTransition d k₀ k' a with
              | error e => simp only [hadd] at h; exact absurd h (by simp)
              | ok d₁ =>
                  simp only [hadd] at h
                  obtain ⟨a1, a2, a3, a4, a5, a6, a7, a8⟩ :=
                    addTransition_ok_spec d k₀ k' a d₁ hadd
                  obtain ⟨i1, i2, i3, i4, i5, i6, i7, i8, i9⟩ := ih d₁ d' h
                  refine ⟨i1.trans a1, i2.trans a2, i3.trans a3, i4.trans a4,
                    i5.trans a5, i6.trans a6, ?_, ?_, ?_⟩
                  · intro k b hk
                    rw [i7 k b hk, a8 k b (fun hkb => hk hkb.1)]
                  · intro b hb
                    rw [List.mem_cons] at hb
                    push_neg at hb
                    rw [i8 b hb.2, a8 k₀ b (fun hkb => hb.1 hkb.2)]
                  · intro b hb
                    rcases List.mem_cons.mp hb with rfl | hb'
                    · by_cases hbm : b ∈ more
                      · exact i9 b hbm
                      · exact ⟨u, k', hu, hid, by rw [i8 b hbm]; exact a7⟩
                    · exact i9 b hb'

/-- What the subset loop of `convert_to_dfa` does on success: for every
listed subset and every alphabet symbol, the recorded transition is the id
of the sorted union of successor epsilon closures; rows of subsets outside
the list are untouched. -/
theorem convertLoop_spec (n : NfaE) (fuel : Nat) (pw : List (List Nat))
    (al : List Char) :
    ∀ (subs : List (List Nat)) (d d' : DfaE),
      convertLoop n fuel pw al d subs = some (.ok d') → subs.Nodup →
      d'.size = d.size ∧ d'.alphabet = d.alphabet ∧ d'.keys = d.keys ∧
        d'.start = d.start ∧ d'.accept = d.accept ∧
        d'.heap.length = d.heap.length ∧
        (∀ (k : Nat) (b : Char), (∀ s, s ∈ subs → listIndex pw s ≠ some k) →
          heapTrans d' k b = heapTrans d k b) ∧
        (∀ s, s ∈ subs → ∀ k₀ : Nat, listIndex pw s = some k₀ → ∀ b, b ∈ al →
          ∃ u k', unionOverSubset n fuel [] s b = some u ∧
            listIndex pw (insertionSort u) = some k' ∧
            heapTrans d' k₀ b = some (some k')) := by
  intro subs
  induction subs with
  | nil =>
      intro d d' h _
      simp only [convertLoop] at h
      injection h with h
      injection h with h
      subst h
      exact ⟨rfl, rfl, rfl, rfl, rfl, rfl, fun _ _ _ => rfl, by simp⟩
  | cons s₀ rest ih =>
      intro d d' h hnd
      rw [List.nodup_cons] at hnd
      rw [convertLoop] at h
      cases hcs : convertSymbols n fuel pw s₀ d al with
      | none => rw [hcs] at h; exact absurd h (by simp)
      | some r =>
          cases r with
          | error e => simp only [hcs] at h; exact absurd h (by simp)
          | ok d₁ =>
              simp only [hcs] at h
              obtain ⟨l1, l2, l3, l4, l5, l6, l7, l8⟩ := ih d₁ d' h hnd.2
              cases al with
              | nil =>
                  have hd₁ : d₁ = d := by
                    simp only [convertSymbols] at hcs
                    injection hcs with hcs
                    injection hcs with hcs
                    exact hcs.symm
                  subst hd₁
                  refine ⟨l1, l2, l3, l4, l5, l6, ?_, ?_⟩
                  · intro k b hk
                    exact l7 k b (fun s hs => hk s (by simp [hs]))
                  · intro s hs k₀ hk₀ b hb
                    exact absurd hb (by simp)
              | cons a more =>
                  obtain ⟨k₀, hk₀⟩ :=
                    convertSymbols_cons_id n fuel pw s₀ d d₁ a more hcs
                  obtain ⟨c1, c2, c3, c4, c5, c6, c7, c8, c9⟩ :=
                    convertSymbols_spec n fuel pw s₀ k₀ hk₀ (a :: more) d d₁ hcs
                  refine ⟨l1.trans c1, l2.trans c2, l3.trans c3, l4.trans c4,
                    l5.trans c5, l6.trans c6, ?_, ?_⟩
                  · intro k b hk
                    rw [l7 k b (fun s hs => hk s (by simp [hs]))]
                    exact c7 k b (fun hkk => hk s₀ (by simp) (by rw [hkk]; exact hk₀))
                  · intro s hs k₁ hk₁ b hb
                    rcases List.mem_cons.mp hs with rfl | hs'
                    · have hk₁₀ : k₁ = k₀ := by
                        rw [hk₀] at hk₁
                        injection hk₁ with hk₁
                        exact hk₁.symm
                      subst hk₁₀
                      obtain ⟨u, k', hu, hid, hrow⟩ := c9 b hb
                      refine ⟨u, k', hu, hid, ?_⟩
                      rw [← hrow]
                      apply l7
                      intro s' hs' hcontra
                      have h1 := listIndex_get pw s' k₁ hcontra
                      have h2 := listIndex_get pw s k₁ hk₀
                      rw [h1] at h2
                      injection h2 with h2
                      exact hnd.1 (h2 ▸ hs')
                    · exact l8 s hs' k₁ hk₁ b hb

/-- Membership in the accept-id collection, generalized over the enumeration
offset. -/
theorem mem_enumFilterAccept (accept : List Nat) :
    ∀ (l : List (List Nat)) (i k : Nat),
      (k ∈ (enumFrom i l).filterMap (fun p =>
        if p.2.any (fun x => decide (x ∈ accept)) then some p.1 else none)) ↔
      ∃ j : Nat, ∃ s, l[j]? = some s ∧ k = i + j ∧ ∃ x, x ∈ s ∧ x ∈ accept := by
  intro l
  induction l with
  | nil =>
      intro i k
      simp [enumFrom]
  | cons s rest ih =>
      intro i k
      rw [enumFrom, List.filterMap_cons]
      cases hacc : s.any (fun x => decide (x ∈ accept)) with
      | true =>
          simp only [hacc, eq_self_iff_true, if_true, List.mem_cons]
          rw [ih (i + 1) k]
          constructor
          · rintro (rfl | ⟨j, s', hj, rfl, hx⟩)
            · refine ⟨0, s, by simp, by omega, ?_⟩
              rw [List.any_eq_true] at hacc
              obtain ⟨x, hxs, hxa⟩ := hacc
              exact ⟨x, hxs, by simpa using hxa⟩
            · exact ⟨j + 1, s', by simpa using hj, by omega, hx⟩
          · rintro ⟨j, s', hj, rfl, x, hxs, hxa⟩
            cases j with
            | zero =>
                left
                omega
            | succ j =>
                right
                exact ⟨j, s', by simpa using hj, by omega, x, hxs, hxa⟩
      | false =>
          simp only [hacc, Bool.false_eq_true, if_false]
          rw [ih (i + 1) k]
          constructor
          · rintro ⟨j, s', hj, rfl, hx⟩
            exact ⟨j + 1, s', by simpa using hj, by omega, hx⟩
          · rintro ⟨j, s', hj, rfl, x, hxs, hxa⟩
            cases j with
            | zero =>
                simp only [List.getElem?_cons_zero] at hj
                injection hj with hj
                subst hj
                have : s.any (fun x => decide (x ∈ accept)) = true :=
                  List.any_eq_true.mpr ⟨x, hxs, by simpa using hxa⟩
                rw [hacc] at this
                exact Bool.noConfusion this
            | succ j =>
                exact ⟨j, s', by simpa using hj, by omega, x, hxs, hxa⟩

/-- Membership in the accept ids of the conversion: exactly the ids of
subsets containing an original accept index. -/
theorem mem_acceptIdsOf (pw : List (List Nat)) (accept : List Nat) (k : Nat) :
    k ∈ acceptIdsOf pw accept ↔
      ∃ s, pw[k]? = some s ∧ ∃ x, x ∈ s ∧ x ∈ accept := by
  rw [acceptIdsOf, mem_enumFilterAccept]
  constructor
  · rintro ⟨j, s, hj, rfl, hx⟩
    exact ⟨s, by simpa using hj, hx⟩
  · rintro ⟨s, hk, hx⟩
    exact ⟨k, s, hk, by omega, hx⟩

/-- Witness for C6 at the two-state total DFA whose second state is
unreachable. -/
theorem c6_prune_reachability_witness :
    (dfaTotalWF c6good = true) ∧ C6Conclusion c6good :=
  ⟨by decide, c6_prune_reachability c6good (by decide)⟩

/-- C2 (amended): whenever `convert_to_dfa` terminates (its epsilon-closure
computations converge), the DFA it builds has exactly the subset-construction
structure of the claim: a power-set dictionary of all `2 ^ n` subsets
enumerated by increasing size, `2 ^ n` DFA states over the alphabet without
the epsilon marker, the start id at the epsilon closure of the NFA start
state, accept ids exactly at subsets meeting the NFA accept set, and one
recorded transition per subset and symbol to the id of the sorted union of
successor epsilon closures — also when that union is empty. -/
theorem c2_subset_construction (n : NfaE) (fuel : Nat) (d : DfaE)
    (h : convertToDfa n fuel = some (.ok d)) : C2Conclusion n fuel d := by
  simp only [convertToDfa] at h
  cases hcl : convertToDfaState n fuel n.start with
  | none => rw [hcl] at h; exact absurd h (by simp)
  | some cl =>
      simp only [hcl] at h
      cases hid : listIndex (powerSetList n.size) cl with
      | none => simp only [hid] at h; exact absurd h (by simp)
      | some startId =>
          simp only [hid] at h
          cases hmk : mkDfa (2 ^ n.size) (n.alphaList.filterMap id) startId
              (acceptIdsOf (powerSetList n.size) n.accept) with
          | error e => simp only [hmk] at h; exact absurd h (by simp)
          | ok d₀ =>
              simp only [hmk] at h
              obtain ⟨m1, m2, m3, m4, m5, m6, _⟩ :=
                mkDfa_ok_spec (2 ^ n.size) (n.alphaList.filterMap id) startId
                  (acceptIdsOf (powerSetList n.size) n.accept) d₀ hmk
              obtain ⟨L1, L2, L3, L4, L5, L6, L7, L8⟩ :=
                convertLoop_spec n fuel (powerSetList n.size) (n.alphaList.filterMap id)
                  (powerSetList n.size) d₀ d h (powerSetList_nodup n.size)
              refine ⟨powerSetList_length n.size, fun s => mem_powerSetList n.size s,
                powerSetList_nodup n.size, powerSetList_sorted_sizes n.size,
                ?_, ?_, ?_, ?_, ?_, ?_, ?_⟩
              · rw [L1, m1]
              · rw [L3, m3]
              · rw [L6, m4]
              · rw [L2, m2]
              · exact ⟨cl, hcl, by rw [L4, m5]; exact hid⟩
              · intro k
                rw [L5, m6]
                exact mem_acceptIdsOf (powerSetList n.size) n.accept k
              · intro k s hks a ha
                have has : s ∈ powerSetList n.size := List.getElem?_mem hks
                have hidx : listIndex (powerSetList n.size) s = some k :=
                  listIndex_of_get _ s k (powerSetList_nodup n.size) hks
                have ha' : a ∈ n.alphaList.filterMap id := by
                  rw [L2, m2] at ha
                  exact ha
                obtain ⟨u, k', hu, hid', hrow⟩ := L8 s has k hidx a ha'
                obtain ⟨humem, _⟩ := unionOverSubset_spec n fuel a s [] u hu
                refine ⟨u, k', hu, ?_, hid', hrow⟩
                intro x
                rw [humem x]
                simp

/-- Witness for C2: converting the one-state `oneNfa` (already with fuel 0,
since no epsilon transition exists) yields exactly `c2d`, which satisfies
the full subset-construction conclusion. -/
theorem c2_subset_construction_witness :
    (convertToDfa oneNfa 0 = some (.ok c2d)) ∧ C2Conclusion oneNfa 0 c2d :=
  ⟨by decide, c2_subset_construction oneNfa 0 c2d (by decide)⟩

end Automata
